import Mathlib

/-!
Verification of the wordle repository's feedback/filtering engine.

Words and hints are embedded as `List Char`, mirroring the Python strings.
Hints use the source's alphabet: 'g' (Hit), 'y' (Present), 'x' (Absent),
with '_' as the first-pass placeholder of `guess_to_hint`.

Python's `collections.Counter` maps letters to integers that may go
negative under repeated decrements, so letter counts are embedded as
`Char → Int`.
-/

/-- Python's `str.lower` restricted to single characters; the repository's
vocabularies are ASCII tokens, where `lower` maps exactly the range A-Z to
a-z and fixes everything else. -/
def pyLower (c : Char) : Char :=
  if 'A' ≤ c ∧ c ≤ 'Z' then Char.ofNat (c.toNat + 32) else c

/-- Helper of `pyDedup`: keep the elements not seen before, threading the
set of elements already emitted. -/
def pyDedupAux {α : Type} [DecidableEq α] : List α → List α → List α
  | [], _ => []
  | a :: t, seen => if a ∈ seen then pyDedupAux t seen else a :: pyDedupAux t (a :: seen)

/-- Order-preserving deduplication keeping the first occurrence of each
element: the key order of a Python `dict` / `Counter` built by insertion,
and the element set of Python's `set`. -/
def pyDedup {α : Type} [DecidableEq α] (l : List α) : List α := pyDedupAux l []

namespace Naive

/-- First-pass marks of `guess_to_hint` (naive.py lines 61-65): 'g' where
the guess letter equals the solution letter, placeholder '_' elsewhere. -/
def greenMark (g s : Char) : Char := if g = s then 'g' else '_'

/-- Number of positions where guess and solution agree on the letter `c`:
the total decrement applied to `letter_counts[c]` by the first pass. -/
def matchCount (guess solution : List Char) (c : Char) : Nat :=
  (List.zip guess solution).countP (fun p => decide (p.1 = p.2 ∧ p.1 = c))

/-- The remaining letter counts after the first pass of `guess_to_hint`:
`Counter(solution)` minus one per green position of that letter. -/
def cnt0 (guess solution : List Char) (c : Char) : Int :=
  (solution.count c : Int) - (matchCount guess solution c : Int)

/-- Second pass of `guess_to_hint` (naive.py lines 67-72): walk the
(guess letter, first-pass mark) pairs threading the remaining letter
counts; green positions are kept, any other position becomes 'y' while
its letter still has a positive remaining count and 'x' otherwise, and
the letter's count is decremented either way. -/
def secondPass : (Char → Int) → List (Char × Char) → List Char
  | _, [] => []
  | cnt, (g, m) :: rest =>
    if m = 'g' then 'g' :: secondPass cnt rest
    else (if cnt g > 0 then 'y' else 'x') ::
      secondPass (fun c => if c = g then cnt g - 1 else cnt c) rest

/-- naive.py `guess_to_hint` (lines 49-74): two-pass Wordle feedback,
greens first (consuming letter counts), then yellow/gray. -/
def guess_to_hint (guess solution : List Char) : List Char :=
  secondPass (cnt0 guess solution)
    (List.zip guess (List.zipWith greenMark guess solution))

end Naive

namespace Wordle

/-- wordle.py `guess_to_hint` (lines 44-70): lowercases both arguments
(line 54) and then runs the identical two-pass algorithm as naive.py. -/
def guess_to_hint (guess solution : List Char) : List Char :=
  Naive.guess_to_hint (guess.map pyLower) (solution.map pyLower)

/-- Green stage of `filter_wordlist` (wordle.py lines 27-29): walk
`enumerate(zip(guess, hint))` carrying the position index; at each
position whose status is 'g', keep only the words with the guessed
letter at that position. -/
def greenStage : Nat → List (Char × Char) → List (List Char) → List (List Char)
  | _, [], wl => wl
  | i, (letter, status) :: rest, wl =>
    greenStage (i + 1) rest
      (if status = 'g' then wl.filter (fun w => decide (w.getD i ' ' = letter)) else wl)

/-- Per-letter occurrence bounds of `filter_wordlist` (wordle.py lines
36-38): from the hint characters at the letter's positions in the guess,
`gs + ys` is the lower bound, and the upper bound is `gs + ys` when at
least one 'x' occurs for the letter and 6 otherwise. -/
def letterBounds (guess hint : List Char) (letter : Char) : Nat × Nat :=
  let lh := (List.zip guess hint).filterMap
    (fun p => if p.1 = letter then some p.2 else none)
  let gs := lh.count 'g'
  let ys := lh.count 'y'
  let xs := lh.count 'x'
  (gs + ys, if xs ≠ 0 then gs + ys else 6)

/-- Count stage of `filter_wordlist` (wordle.py lines 35-39): for each
distinct letter of the guess, keep only the words whose occurrence count
of that letter lies within `letterBounds`.  The Python loop runs over the
unordered `set(guess)`; successive filters commute, so iterating the
distinct letters in first-occurrence order is observably identical. -/
def countStage (guess hint : List Char) : List Char → List (List Char) → List (List Char)
  | [], wl => wl
  | letter :: rest, wl =>
    countStage guess hint rest
      (wl.filter (fun w =>
        decide ((letterBounds guess hint letter).1 ≤ w.count letter ∧
          w.count letter ≤ (letterBounds guess hint letter).2)))

/-- wordle.py `filter_wordlist` (lines 9-41): lowercase the guess and the
hint (line 23), then apply the green-position stage followed by the
per-letter count stage. -/
def filter_wordlist (wordlist : List (List Char)) (guess hint : List Char) :
    List (List Char) :=
  let g := guess.map pyLower
  let h := hint.map pyLower
  countStage g h (pyDedup g) (greenStage 0 (List.zip g h) wordlist)

end Wordle

namespace Wordle

/-- Cartesian power in `itertools.product` order: the leftmost coordinate
varies slowest, the rightmost fastest. -/
def prodN (alphabet : List Char) : Nat → List (List Char)
  | 0 => [[]]
  | n + 1 => alphabet.flatMap (fun c => (prodN alphabet n).map (fun t => c :: t))

/-- The 243 possible hints, `product('xyg', repeat=5)` in order (wordle.py
line 156, precompute.py `hint_strings_builder`). -/
def hintStrings : List (List Char) := prodN ['x', 'y', 'g'] 5

/-- Index of a hint string in `hintStrings`: the `hint_num` / `hint_to_index`
mapping from hints to matrix entries. -/
def hintIndex (h : List Char) : Nat := hintStrings.indexOf h

/-- wordle.py `preload_words_and_hints` matrix (lines 159-187): the value at
(guess index g, solution index s) of `inflate(hints_triu, dim)`.  The flat
`hints_triu` holds `hint_num[guess_to_hint(valid[i], valid[j])]` for the
above-diagonal pairs i < j in `np.triu_indices` order; `inflate` writes it
into the upper triangle, adds the transpose into the (previously zero)
lower triangle, and fills the diagonal with the index of 'ggggg'.  Hence
entry (g, s) is: the 'ggggg' index when g = s, the hint for
(valid[g], valid[s]) when g < s, and the transposed hint for
(valid[s], valid[g]) when g > s.  (Entries are uint8; every hint index is
at most 242, so no wraparound occurs.) -/
def preloadMatrix (valid : List (List Char)) (g s : Nat) : Nat :=
  if g = s then hintIndex ['g', 'g', 'g', 'g', 'g']
  else if g < s then hintIndex (guess_to_hint (valid.getD g []) (valid.getD s []))
  else hintIndex (guess_to_hint (valid.getD s []) (valid.getD g []))

/-- wordle.py `naive_best_starting_word` per-guess metrics (lines 80-87):
`hints` is the Counter of feedbacks of the guess across the target set
(distinct keys in first-appearance order), `remaining` the lengths of the
filtered wordlists per distinct hint, and the returned tuple is
(average_case, worst_case, num_groups, average_group_size).  Python's
`max` over the nonempty `remaining` list is embedded as `foldl max 0`,
and `hints.total()` as the sum of the Counter's multiplicities. -/
def naiveMetrics (target : List (List Char)) (guess : List Char) :
    ℚ × Nat × Nat × ℚ :=
  let hintsList := target.map (guess_to_hint guess)
  let distinct := pyDedup hintsList
  let counts := distinct.map (fun h => hintsList.count h)
  let remaining := distinct.map (fun h => (filter_wordlist target guess h).length)
  let remainingTotal : Nat := ((List.zip remaining counts).map (fun p => p.1 * p.2)).sum
  let total : Nat := counts.sum
  ((remainingTotal : ℚ) / (total : ℚ),
   remaining.foldl max 0,
   distinct.length,
   (remaining.sum : ℚ) / (distinct.length : ℚ))

/-- wordle.py `naive_best_starting_word` (lines 73-91): one metrics tuple
per vocabulary word, keyed by the guess (tqdm progress reporting elided). -/
def naive_best_starting_word (vocabulary target : List (List Char)) :
    List (List Char × (ℚ × Nat × Nat × ℚ)) :=
  vocabulary.map (fun g => (g, naiveMetrics target g))

/-- Lexicographic comparison of words, Python's `<=` on strings. -/
def wordLE : List Char → List Char → Bool
  | [], _ => true
  | _ :: _, [] => false
  | a :: as', b :: bs' => if a = b then wordLE as' bs' else decide (a < b)

/-- Insertion of a word into a sorted list, the step of `pySort`. -/
def insertWord (a : List Char) : List (List Char) → List (List Char)
  | [] => [a]
  | b :: t => if wordLE a b then a :: b :: t else b :: insertWord a t

/-- Python's `sorted` on a list of words (insertion sort; on the duplicate
free lists it is applied to, any correct ascending sort produces the same
output). -/
def pySort (l : List (List Char)) : List (List Char) :=
  l.foldr insertWord []

/-- `sorted(set(vocabulary) - set([guess]))` (wordle.py line 104). -/
def reducedVocab (vocabulary : List (List Char)) (guess : List Char) :
    List (List Char) :=
  pySort ((pyDedup vocabulary).filter (fun w => decide (w ≠ guess)))

/-- Python's `min` over a list of values: `none` on the empty list (where
Python raises `ValueError`). -/
def pyMin : List ℚ → Option ℚ
  | [] => none
  | x :: t => some (t.foldl min x)

/-- The sentinel `1e30` marking a guess that gains no information
(wordle.py lines 111 and 123); embedded exactly as 10^30. -/
def bigSentinel : ℚ := 10 ^ 30

/-- Cost of one feedback branch in `average_number_of_guesses` (wordle.py
lines 115-127): filter the target set by the hint; cost 1 for a singleton,
the sentinel when nothing was eliminated, otherwise one plus the minimum
of the recursive result on the reduced vocabulary.  `rec` is the recursive
call; `none` propagates fuel exhaustion (or Python's `ValueError` from
`min` of an empty dict). -/
def hintCost
    (rec : List (List Char) → List (List Char) → Option (List (List Char × ℚ)))
    (target : List (List Char)) (guess : List Char) (rv : List (List Char))
    (h : List Char) : Option ℚ :=
  let rt := filter_wordlist target guess h
  if rt.length = 1 then some 1
  else if rt.length = target.length then some bigSentinel
  else
    match rec rv rt with
    | none => none
    | some ga =>
      match pyMin (ga.map Prod.snd) with
      | none => none
      | some m => some (1 + m)

/-- The `for hint in hint_to_solutions` loop of `average_number_of_guesses`
(wordle.py lines 115-127), building the `num_guesses` mapping in hint
order. -/
def hintLoop
    (rec : List (List Char) → List (List Char) → Option (List (List Char × ℚ)))
    (target : List (List Char)) (guess : List Char) (rv : List (List Char)) :
    List (List Char) → Option (List (List Char × ℚ))
  | [] => some []
  | h :: rest =>
    match hintCost rec target guess rv h with
    | none => none
    | some c =>
      match hintLoop rec target guess rv rest with
      | none => none
      | some l => some ((h, c) :: l)

/-- The `for guess in vocabulary` loop of `average_number_of_guesses`
(wordle.py lines 102-131): group the target set by the guess's feedback
(distinct hints in first-appearance order, the keys of the
`hint_to_solutions` defaultdict); a single group gets the sentinel,
otherwise the guess's cost is the mean of its branch costs; the loop
breaks after the first guess whose cost equals 1. -/
def guessLoop
    (rec : List (List Char) → List (List Char) → Option (List (List Char × ℚ)))
    (vocabulary target : List (List Char)) :
    List (List Char) → Option (List (List Char × ℚ))
  | [] => some []
  | g :: rest =>
    let rv := reducedVocab vocabulary g
    let groups := pyDedup (target.map (guess_to_hint g))
    if groups.length = 1 then
      match guessLoop rec vocabulary target rest with
      | none => none
      | some l => some ((g, bigSentinel) :: l)
    else
      match hintLoop rec target g rv groups with
      | none => none
      | some ng =>
        let avg := (ng.map Prod.snd).sum / (ng.length : ℚ)
        if avg = 1 then some [(g, avg)]
        else
          match guessLoop rec vocabulary target rest with
          | none => none
          | some l => some ((g, avg) :: l)

/-- wordle.py `average_number_of_guesses` (lines 94-133), with an explicit
fuel bounding the recursion depth; `none` stands for fuel exhaustion (and
for the raising paths: the `assert len(target_set) > 0` and `min` of an
empty mapping).  Costs are exact rationals; the result is the `results`
dict as an association list in insertion order, with the base case's
`{'': 0}` represented by the empty word `[]`. -/
def average_number_of_guesses :
    Nat → List (List Char) → List (List Char) → Option (List (List Char × ℚ))
  | 0, _, _ => none
  | fuel + 1, vocabulary, target =>
    if target.length = 0 then none
    else if target.length = 1 then some [([], 0)]
    else guessLoop (average_number_of_guesses fuel) vocabulary target vocabulary

end Wordle

namespace Precompute

/-- Initial per-row marks of `precompute_guesses_to_hints` (precompute.py
lines 63-65): a full row of 'x' overwritten with 'g' at each position
where the solution letter equals the guess letter. -/
def vecInit (guess solution : List Char) : List Char :=
  List.zipWith (fun g s => if g = s then 'g' else 'x') guess solution

/-- `already_assigned` (precompute.py line 71): the number of positions of
`letter` in the guess whose current mark is not 'x'. -/
def vecAssigned (guess marks : List Char) (letter : Char) : Nat :=
  (List.zip guess marks).countP (fun p => decide (p.1 = letter ∧ p.2 ≠ 'x'))

/-- One iteration of the yellow-assignment loop (precompute.py lines
67-73) at position `i` with guess letter `letter`: mark position `i`
with 'y' when the letter still has capacity (its count in the solution
exceeds the marks already assigned to it) and the position is not green. -/
def vecStep (solution guess : List Char) (marks : List Char) (i : Nat)
    (letter : Char) : List Char :=
  if (solution.count letter : Int) - (vecAssigned guess marks letter : Int) > 0 ∧
      marks.getD i 'x' ≠ 'g' then
    marks.set i 'y'
  else marks

/-- The `for index, letter in enumerate(guess)` loop of the vectorized
hint computation, carrying the position index. -/
def vecLoop (solution guess : List Char) : List Char → Nat → List Char → List Char
  | marks, _, [] => marks
  | marks, i, letter :: rest =>
    vecLoop solution guess (vecStep solution guess marks i letter) (i + 1) rest

/-- One row-cell of `precompute_guesses_to_hints` (precompute.py lines
63-73): the numpy code processes all solution rows at once with boolean
masks, but every row is computed independently, so the batch is the map
of this per-pair function over the solution vocabulary. -/
def vecHint (guess solution : List Char) : List Char :=
  vecLoop solution guess (vecInit guess solution) 0 guess

/-- precompute.py `precompute_guesses_to_hints` (lines 38-78): the matrix
of hint indexes for every (guess, solution) pair, each computed by the
vectorized marking and encoded through `hint_to_index` (cache-file reuse
elided; entries are uint8 and every hint index is below 243). -/
def precompute_guesses_to_hints (source target : List (List Char)) :
    List (List Nat) :=
  source.map (fun g => target.map (fun s => Wordle.hintIndex (vecHint g s)))

end Precompute

/-- Splitting a `countP` along a second predicate. -/
theorem countP_and_split {α : Type} (p q : α → Bool) (l : List α) :
    l.countP p = l.countP (fun a => p a && q a) + l.countP (fun a => p a && !q a) := by
  induction l with
  | nil => simp
  | cons a t ih =>
    simp only [List.countP_cons, ih]
    by_cases hp : p a <;> by_cases hq : q a <;> simp [hp, hq] <;> omega

/-- A count over a zip of a zip that ignores the middle component equals
the count over the outer zip. -/
theorem countP_zip_zip {α β γ : Type} (P : α → γ → Prop)
    [inst : ∀ a c, Decidable (P a c)] :
    ∀ (a : List α) (b : List β) (c : List γ), a.length ≤ b.length →
      ((a.zip b).zip c).countP (fun q => decide (P q.1.1 q.2)) =
        (a.zip c).countP (fun q => decide (P q.1 q.2)) := by
  intro a
  induction a with
  | nil => intro b c h; simp
  | cons x xs ih =>
    intro b c h
    cases b with
    | nil => simp at h
    | cons y ys =>
      cases c with
      | nil => simp
      | cons z zs =>
        simp only [List.zip_cons_cons, List.countP_cons]
        rw [ih ys zs (by simpa using h)]

namespace Naive

theorem secondPass_length (pairs : List (Char × Char)) :
    ∀ cnt, (secondPass cnt pairs).length = pairs.length := by
  induction pairs with
  | nil => intro cnt; simp [secondPass]
  | cons p rest ih =>
    intro cnt
    obtain ⟨gc, m⟩ := p
    by_cases hm : m = 'g' <;> simp [secondPass, hm, ih]

theorem secondPass_symbols (pairs : List (Char × Char)) :
    ∀ cnt c, c ∈ secondPass cnt pairs → c = 'g' ∨ c = 'y' ∨ c = 'x' := by
  induction pairs with
  | nil => intro cnt c h; simp [secondPass] at h
  | cons p rest ih =>
    intro cnt c h
    obtain ⟨gc, m⟩ := p
    by_cases hm : m = 'g'
    · simp only [secondPass, if_pos hm, List.mem_cons] at h
      rcases h with h | h
      · exact Or.inl h
      · exact ih _ _ h
    · simp only [secondPass, if_neg hm, List.mem_cons] at h
      rcases h with h | h
      · subst h
        by_cases hc : cnt gc > 0
        · exact Or.inr (Or.inl (by simp [hc]))
        · exact Or.inr (Or.inr (by simp [hc]))
      · exact ih _ _ h

theorem secondPass_getD_green (pairs : List (Char × Char)) :
    ∀ cnt i, ((secondPass cnt pairs).getD i '?' = 'g') ↔
      ((pairs.getD i ('?', '?')).2 = 'g') := by
  induction pairs with
  | nil => intro cnt i; simp [secondPass]
  | cons p rest ih =>
    intro cnt i
    obtain ⟨gc, m⟩ := p
    cases i with
    | zero =>
      by_cases hm : m = 'g'
      · simp [secondPass, hm]
      · simp only [secondPass, if_neg hm, List.getD_cons_zero]
        constructor
        · intro h
          by_cases hc : cnt gc > 0 <;> simp [hc] at h
        · intro h
          exact absurd h hm
    | succ n =>
      by_cases hm : m = 'g'
      · simp only [secondPass, if_pos hm, List.getD_cons_succ]
        exact ih cnt n
      · simp only [secondPass, if_neg hm, List.getD_cons_succ]
        exact ih _ n

theorem secondPass_count_green (pairs : List (Char × Char)) :
    ∀ cnt, (secondPass cnt pairs).count 'g' =
      pairs.countP (fun p => decide (p.2 = 'g')) := by
  induction pairs with
  | nil => intro cnt; simp [secondPass]
  | cons p rest ih =>
    intro cnt
    obtain ⟨gc, m⟩ := p
    by_cases hm : m = 'g'
    · simp [secondPass, hm, List.count_cons, List.countP_cons, ih]
    · simp only [secondPass, if_neg hm, List.count_cons, List.countP_cons, ih]
      by_cases hc : cnt gc > 0 <;> simp [hc, hm]

theorem secondPass_gFor (L : Char) (pairs : List (Char × Char)) :
    ∀ cnt, ((pairs.zip (secondPass cnt pairs)).countP
        (fun q => decide (q.1.1 = L ∧ q.2 = 'g'))) =
      pairs.countP (fun p => decide (p.1 = L ∧ p.2 = 'g')) := by
  induction pairs with
  | nil => intro cnt; simp [secondPass]
  | cons p rest ih =>
    intro cnt
    obtain ⟨gc, m⟩ := p
    by_cases hm : m = 'g'
    · have e : secondPass cnt ((gc, m) :: rest) = 'g' :: secondPass cnt rest := by
        simp [secondPass, hm]
      rw [e, List.zip_cons_cons, List.countP_cons, List.countP_cons, ih]
      simp [hm]
    · have e : secondPass cnt ((gc, m) :: rest) =
          (if cnt gc > 0 then 'y' else 'x') ::
            secondPass (fun c => if c = gc then cnt gc - 1 else cnt c) rest := by
        simp [secondPass, hm]
      rw [e, List.zip_cons_cons, List.countP_cons, List.countP_cons, ih]
      by_cases hc : cnt gc > 0 <;> simp [hc, hm]

theorem secondPass_yFor (L : Char) (pairs : List (Char × Char)) :
    ∀ cnt, ((pairs.zip (secondPass cnt pairs)).countP
        (fun q => decide (q.1.1 = L ∧ q.2 = 'y'))) =
      min (pairs.countP (fun p => decide (p.1 = L ∧ p.2 ≠ 'g'))) (cnt L).toNat := by
  induction pairs with
  | nil => intro cnt; simp [secondPass]
  | cons p rest ih =>
    intro cnt
    obtain ⟨gc, m⟩ := p
    by_cases hm : m = 'g'
    · have e : secondPass cnt ((gc, m) :: rest) = 'g' :: secondPass cnt rest := by
        simp [secondPass, hm]
      rw [e, List.zip_cons_cons, List.countP_cons, List.countP_cons, ih]
      simp [hm]
    · have e : secondPass cnt ((gc, m) :: rest) =
          (if cnt gc > 0 then 'y' else 'x') ::
            secondPass (fun c => if c = gc then cnt gc - 1 else cnt c) rest := by
        simp [secondPass, hm]
      rw [e, List.zip_cons_cons, List.countP_cons, List.countP_cons, ih]
      by_cases hgc : gc = L
      · subst hgc
        simp only [if_pos rfl]
        by_cases hc : cnt gc > 0
        · simp [hm, hc]
          omega
        · simp [hm, hc]
          omega
      · have hswap : (L = gc) = False := by
          simp [Ne.symm hgc]
        simp [hgc, hswap]

end Naive

/-- Number of positions of the letter `L` in the guess that the hint marks
Hit ('g') or Present ('y'). -/
def hitPresentCount (guess hint : List Char) (L : Char) : Nat :=
  (List.zip guess hint).countP (fun p => decide (p.1 = L ∧ (p.2 = 'g' ∨ p.2 = 'y')))

namespace Naive

theorem pairs_green (L : Char) (g : List Char) : ∀ (s : List Char),
    (List.zip g (List.zipWith greenMark g s)).countP
      (fun p => decide (p.1 = L ∧ p.2 = 'g')) = matchCount g s L := by
  induction g with
  | nil => intro s; simp [matchCount]
  | cons a as ih =>
    intro s
    cases s with
    | nil => simp [matchCount]
    | cons b bs =>
      have ihs := ih bs
      simp only [matchCount] at ihs ⊢
      simp only [List.zipWith_cons_cons, List.zip_cons_cons, List.countP_cons, ihs]
      by_cases hab : a = b
      · subst hab
        simp [greenMark]
      · simp [greenMark, hab]

theorem pairs_letter (L : Char) (g : List Char) : ∀ (s : List Char),
    g.length = s.length →
    (List.zip g (List.zipWith greenMark g s)).countP
      (fun p => decide (p.1 = L)) = g.count L := by
  induction g with
  | nil => intro s _; simp
  | cons a as ih =>
    intro s hlen
    cases s with
    | nil => simp at hlen
    | cons b bs =>
      simp only [List.zipWith_cons_cons, List.zip_cons_cons, List.countP_cons,
        List.count_cons]
      rw [ih bs (by simpa using hlen)]
      by_cases haL : a = L <;> simp [haL]

theorem pairs_mark_green (g : List Char) : ∀ (s : List Char),
    (List.zip g (List.zipWith greenMark g s)).countP
      (fun p => decide (p.2 = 'g')) =
    (List.zip g s).countP (fun p => decide (p.1 = p.2)) := by
  induction g with
  | nil => intro s; simp
  | cons a as ih =>
    intro s
    cases s with
    | nil => simp
    | cons b bs =>
      simp only [List.zipWith_cons_cons, List.zip_cons_cons, List.countP_cons, ih bs]
      by_cases hab : a = b
      · subst hab
        simp [greenMark]
      · simp [greenMark, hab]

theorem matchCount_cons (L a b : Char) (as bs : List Char) :
    matchCount (a :: as) (b :: bs) L =
      matchCount as bs L + if a = b ∧ a = L then 1 else 0 := by
  simp [matchCount, List.countP_cons]

theorem matchCount_le_count (L : Char) (g : List Char) : ∀ (s : List Char),
    matchCount g s L ≤ s.count L := by
  induction g with
  | nil => intro s; simp [matchCount]
  | cons a as ih =>
    intro s
    cases s with
    | nil => simp [matchCount]
    | cons b bs =>
      rw [matchCount_cons, List.count_cons]
      have ihs := ih bs
      by_cases hab : a = b ∧ a = L
      · have hbL : (b == L) = true := by
          simp [← hab.1, hab.2]
        rw [if_pos hab, hbL]
        simp
        omega
      · rw [if_neg hab]
        by_cases hbL : (b == L) = true <;> simp [hbL] <;> omega

theorem zip_countP_le_count (L : Char) (g : List Char) : ∀ (h : List Char),
    (List.zip g h).countP (fun p => decide (p.1 = L)) ≤ g.count L := by
  induction g with
  | nil => intro h; simp
  | cons a as ih =>
    intro h
    cases h with
    | nil => simp
    | cons c cs =>
      simp only [List.zip_cons_cons, List.countP_cons, List.count_cons]
      have := ih cs
      by_cases haL : a = L <;> simp [haL] <;> omega

theorem hitPresent_le_count_solution (L : Char) (g s : List Char)
    (hlen : g.length = s.length) :
    hitPresentCount g (Naive.guess_to_hint g s) L ≤ s.count L := by
  have hmarks : g.length ≤ (List.zipWith greenMark g s).length := by
    rw [List.length_zipWith]
    omega
  have hyneg : ('y' : Char) ≠ 'g' := by decide
  have hsplit : hitPresentCount g (Naive.guess_to_hint g s) L =
      (List.zip g (Naive.guess_to_hint g s)).countP
        (fun p => decide (p.1 = L ∧ p.2 = 'g')) +
      (List.zip g (Naive.guess_to_hint g s)).countP
        (fun p => decide (p.1 = L ∧ p.2 = 'y')) := by
    rw [hitPresentCount, countP_and_split _ (fun p => p.2 == 'g')]
    congr 1
    · apply List.countP_congr
      intro x _
      simp only [Bool.and_eq_true, decide_eq_true_eq, beq_iff_eq]
      constructor
      · rintro ⟨⟨h1, _⟩, h3⟩
        exact ⟨h1, h3⟩
      · rintro ⟨h1, h2⟩
        exact ⟨⟨h1, Or.inl h2⟩, h2⟩
    · apply List.countP_congr
      intro x _
      simp only [Bool.and_eq_true, Bool.not_eq_true', decide_eq_true_eq,
        beq_eq_false_iff_ne, ne_eq]
      constructor
      · rintro ⟨⟨h1, h2 | h2⟩, h3⟩
        · exact absurd h2 h3
        · exact ⟨h1, h2⟩
      · rintro ⟨h1, h2⟩
        exact ⟨⟨h1, Or.inr h2⟩, h2 ▸ hyneg⟩
  have hA : (List.zip g (Naive.guess_to_hint g s)).countP
      (fun p => decide (p.1 = L ∧ p.2 = 'g')) = matchCount g s L := by
    rw [show Naive.guess_to_hint g s = secondPass (cnt0 g s)
        (List.zip g (List.zipWith greenMark g s)) from rfl]
    rw [← countP_zip_zip (fun a c => a = L ∧ c = 'g') g
      (List.zipWith greenMark g s) _ hmarks]
    rw [secondPass_gFor, pairs_green]
  have hB : (List.zip g (Naive.guess_to_hint g s)).countP
      (fun p => decide (p.1 = L ∧ p.2 = 'y')) ≤
      s.count L - matchCount g s L := by
    rw [show Naive.guess_to_hint g s = secondPass (cnt0 g s)
        (List.zip g (List.zipWith greenMark g s)) from rfl]
    rw [← countP_zip_zip (fun a c => a = L ∧ c = 'y') g
      (List.zipWith greenMark g s) _ hmarks]
    rw [secondPass_yFor]
    have : (cnt0 g s L).toNat = s.count L - matchCount g s L := by
      rw [cnt0, Int.toNat_sub]
    omega
  have hle := matchCount_le_count L g s
  omega

theorem hitPresent_le_count_guess (L : Char) (g s : List Char) :
    hitPresentCount g (Naive.guess_to_hint g s) L ≤ g.count L := by
  calc hitPresentCount g (Naive.guess_to_hint g s) L
      ≤ (List.zip g (Naive.guess_to_hint g s)).countP
          (fun p => decide (p.1 = L)) := by
        apply List.countP_mono_left
        intro x _ hx
        simp only [decide_eq_true_eq] at hx ⊢
        exact hx.1
    _ ≤ g.count L := zip_countP_le_count L g _

theorem count_green_eq (g s : List Char) :
    (Naive.guess_to_hint g s).count 'g' =
      (List.zip g s).countP (fun p => decide (p.1 = p.2)) := by
  rw [show Naive.guess_to_hint g s = secondPass (cnt0 g s)
      (List.zip g (List.zipWith greenMark g s)) from rfl]
  rw [secondPass_count_green, pairs_mark_green]

end Naive

/-- Claim C8: for 5-letter lowercase word pairs, the number of positions
the hint marks Hit or Present for any letter L never exceeds the number
of occurrences of L in the solution, nor the number of occurrences of L
in the guess; and the number of Hit marks equals exactly the number of
positions where guess and solution agree. -/
theorem C8_mark_counts (g s : List Char)
    (hg5 : g.length = 5) (hs5 : s.length = 5)
    (hgl : g.map pyLower = g) (hsl : s.map pyLower = s) :
    (∀ L : Char,
      hitPresentCount g (Wordle.guess_to_hint g s) L ≤ s.count L ∧
      hitPresentCount g (Wordle.guess_to_hint g s) L ≤ g.count L) ∧
    (Wordle.guess_to_hint g s).count 'g' =
      (List.zip g s).countP (fun p => decide (p.1 = p.2)) := by
  have hW : Wordle.guess_to_hint g s = Naive.guess_to_hint g s := by
    rw [Wordle.guess_to_hint, hgl, hsl]
  rw [hW]
  refine ⟨fun L => ⟨?_, ?_⟩, Naive.count_green_eq g s⟩
  · exact Naive.hitPresent_le_count_solution L g s (by omega)
  · exact Naive.hitPresent_le_count_guess L g s

/-- Claim C8 witness: the bounds at the doctest pair "array" / "trash". -/
theorem C8_mark_counts_witness :
    (∀ L : Char,
      hitPresentCount ['a','r','r','a','y']
        (Wordle.guess_to_hint ['a','r','r','a','y'] ['t','r','a','s','h']) L ≤
          List.count L ['t','r','a','s','h'] ∧
      hitPresentCount ['a','r','r','a','y']
        (Wordle.guess_to_hint ['a','r','r','a','y'] ['t','r','a','s','h']) L ≤
          List.count L ['a','r','r','a','y']) ∧
    (Wordle.guess_to_hint ['a','r','r','a','y'] ['t','r','a','s','h']).count 'g' =
      (List.zip ['a','r','r','a','y'] ['t','r','a','s','h']).countP
        (fun p => decide (p.1 = p.2)) :=
  C8_mark_counts ['a','r','r','a','y'] ['t','r','a','s','h']
    (by decide) (by decide) (by decide) (by decide)

namespace Wordle

/-- The green-position constraints of `filter_wordlist` as a single
predicate: for every pair of (guess letter, hint status) starting at
position `i`, a 'g' status requires the word to carry the guessed letter
at that position. -/
def greenOKFrom (w : List Char) : Nat → List (Char × Char) → Bool
  | _, [] => true
  | i, (letter, status) :: rest =>
    (decide (status = 'g' → w.getD i ' ' = letter)) && greenOKFrom w (i + 1) rest

/-- The per-letter count constraints of `filter_wordlist` as a single
predicate: every distinct guess letter's occurrence count in the word
lies within `letterBounds`. -/
def countOK (guess hint : List Char) (w : List Char) : Bool :=
  (pyDedup guess).all (fun letter =>
    decide ((letterBounds guess hint letter).1 ≤ w.count letter ∧
      w.count letter ≤ (letterBounds guess hint letter).2))

/-- What `filter_wordlist` actually checks of a word, as one predicate
over the (already lowercased) guess and hint. -/
def filterPred (guess hint : List Char) (w : List Char) : Bool :=
  greenOKFrom w 0 (List.zip guess hint) && countOK guess hint w

theorem greenStage_eq (pairs : List (Char × Char)) :
    ∀ (i : Nat) (wl : List (List Char)),
      greenStage i pairs wl = wl.filter (fun w => greenOKFrom w i pairs) := by
  induction pairs with
  | nil =>
    intro i wl
    simp [greenStage, greenOKFrom]
  | cons p rest ih =>
    intro i wl
    obtain ⟨letter, status⟩ := p
    by_cases hst : status = 'g'
    · subst hst
      simp only [greenStage, if_pos rfl, if_true]
      rw [ih, List.filter_filter]
      apply List.filter_congr
      intro w _
      simp [greenOKFrom, Bool.and_comm]
    · simp only [greenStage, if_neg hst]
      rw [ih]
      apply List.filter_congr
      intro w _
      simp [greenOKFrom, hst]

theorem countStage_eq (guess hint : List Char) (letters : List Char) :
    ∀ (wl : List (List Char)),
      countStage guess hint letters wl =
        wl.filter (fun w => letters.all (fun letter =>
          decide ((letterBounds guess hint letter).1 ≤ w.count letter ∧
            w.count letter ≤ (letterBounds guess hint letter).2))) := by
  induction letters with
  | nil =>
    intro wl
    simp [countStage]
  | cons letter rest ih =>
    intro wl
    simp only [countStage]
    rw [ih, List.filter_filter]
    apply List.filter_congr
    intro w _
    simp [Bool.and_comm]

theorem filter_wordlist_eq_filter (wordlist : List (List Char))
    (guess hint : List Char) :
    filter_wordlist wordlist guess hint =
      wordlist.filter (filterPred (guess.map pyLower) (hint.map pyLower)) := by
  rw [show filter_wordlist wordlist guess hint =
    countStage (guess.map pyLower) (hint.map pyLower)
      (pyDedup (guess.map pyLower))
      (greenStage 0 ((guess.map pyLower).zip (hint.map pyLower)) wordlist) from rfl]
  rw [greenStage_eq, countStage_eq, List.filter_filter]
  apply List.filter_congr
  intro w _
  simp [filterPred, countOK, Bool.and_comm]

theorem filter_wordlist_sublist (wordlist : List (List Char))
    (guess hint : List Char) :
    (filter_wordlist wordlist guess hint).Sublist wordlist :=
  (filter_wordlist_eq_filter wordlist guess hint) ▸ List.filter_sublist wordlist

/-- Claim C3 (amended): `filter_wordlist` returns exactly the words of the
input list that satisfy the feedback's green-position constraints and
per-letter count bounds — the necessary conditions it checks — and the
result is an order-preserving sublist of the input.  (By `C3_cex` a
retained word need not reproduce the full observed feedback, so the
original "retained iff guess_to_hint gives back the feedback" reading is
false; by `C9_filter_complete` every word that does reproduce the feedback
is retained.) -/
theorem C3_filter_characterization (wordlist : List (List Char))
    (guess hint : List Char) :
    filter_wordlist wordlist guess hint =
      wordlist.filter (filterPred (guess.map pyLower) (hint.map pyLower)) ∧
    (filter_wordlist wordlist guess hint).Sublist wordlist :=
  ⟨filter_wordlist_eq_filter wordlist guess hint,
   filter_wordlist_sublist wordlist guess hint⟩

end Wordle

/-- `pyLower` fixes lists of characters outside A-Z elementwise. -/
theorem map_pyLower_fixed {l : List Char} (h : ∀ c ∈ l, pyLower c = c) :
    l.map pyLower = l := by
  induction l with
  | nil => rfl
  | cons a t ih =>
    simp only [List.map_cons]
    rw [h a (List.mem_cons_self a t), ih (fun c hc => h c (List.mem_cons_of_mem a hc))]

theorem getD_zip {α β : Type} (a : List α) : ∀ (b : List β) (i : Nat)
    (da : α) (db : β), i < a.length → i < b.length →
    (a.zip b).getD i (da, db) = (a.getD i da, b.getD i db) := by
  induction a with
  | nil => intro b i da db h _; simp at h
  | cons x xs ih =>
    intro b i da db ha hb
    cases b with
    | nil => simp at hb
    | cons y ys =>
      cases i with
      | zero => simp
      | succ n =>
        simp only [List.zip_cons_cons, List.getD_cons_succ]
        exact ih ys n da db (by simpa using ha) (by simpa using hb)

theorem getD_zipWith {α β γ : Type} (f : α → β → γ) (a : List α) :
    ∀ (b : List β) (i : Nat) (da : α) (db : β) (dc : γ),
    i < a.length → i < b.length →
    (List.zipWith f a b).getD i dc = f (a.getD i da) (b.getD i db) := by
  induction a with
  | nil => intro b i da db dc h _; simp at h
  | cons x xs ih =>
    intro b i da db dc ha hb
    cases b with
    | nil => simp at hb
    | cons y ys =>
      cases i with
      | zero => simp
      | succ n =>
        simp only [List.zipWith_cons_cons, List.getD_cons_succ]
        exact ih ys n da db dc (by simpa using ha) (by simpa using hb)

/-- The hint count of a letter's mark list equals the positional count over
the zipped guess/hint pairs. -/
theorem count_filterMap_letter (L x : Char) : ∀ (l : List (Char × Char)),
    ((l.filterMap (fun p => if p.1 = L then some p.2 else none)).count x) =
      l.countP (fun p => decide (p.1 = L ∧ p.2 = x)) := by
  intro l
  induction l with
  | nil => simp
  | cons p rest ih =>
    by_cases hp : p.1 = L
    · simp only [List.filterMap_cons, if_pos hp, List.count_cons, List.countP_cons, ih]
      by_cases hx : p.2 = x <;> simp [hp, hx]
    · simp only [List.filterMap_cons, if_neg hp, List.countP_cons, ih]
      simp [hp]

theorem zip_countP_letter (L : Char) (g : List Char) : ∀ (h : List Char),
    g.length ≤ h.length →
    (List.zip g h).countP (fun p => decide (p.1 = L)) = g.count L := by
  induction g with
  | nil => intro h _; simp
  | cons a as ih =>
    intro h hle
    cases h with
    | nil => simp at hle
    | cons c cs =>
      simp only [List.zip_cons_cons, List.countP_cons, List.count_cons]
      rw [ih cs (by simpa using hle)]
      by_cases haL : a = L <;> simp [haL]

namespace Naive

theorem guess_to_hint_length (g s : List Char) :
    (guess_to_hint g s).length = min g.length s.length := by
  rw [show guess_to_hint g s = secondPass (cnt0 g s)
      (List.zip g (List.zipWith greenMark g s)) from rfl]
  rw [secondPass_length, List.length_zip, List.length_zipWith]
  omega

theorem guess_to_hint_symbols (g s : List Char) (c : Char)
    (h : c ∈ guess_to_hint g s) : c = 'g' ∨ c = 'y' ∨ c = 'x' :=
  secondPass_symbols _ _ _ h

/-- Positional description of the hint's green marks: position i is marked
'g' exactly when the guess and solution agree there. -/
theorem guess_to_hint_green_iff (g s : List Char) (i : Nat)
    (hi : i < g.length) (hs : i < s.length) :
    ((guess_to_hint g s).getD i '?' = 'g') ↔ g.getD i ' ' = s.getD i ' ' := by
  rw [show guess_to_hint g s = secondPass (cnt0 g s)
      (List.zip g (List.zipWith greenMark g s)) from rfl]
  rw [secondPass_getD_green]
  have hmarks : i < (List.zipWith greenMark g s).length := by
    rw [List.length_zipWith]; omega
  rw [getD_zip g _ i '?' '?' hi hmarks]
  rw [getD_zipWith greenMark g s i ' ' ' ' '?' hi hs]
  simp only [greenMark]
  by_cases hab : g.getD i ' ' = s.getD i ' ' <;> simp [hab]

/-- The per-letter count bounds that `filter_wordlist` derives from a hint
hold of the very solution that produced the hint. -/
theorem letterBounds_sound (L : Char) (g w : List Char)
    (hlen : g.length = w.length) (hw6 : w.count L ≤ 6) :
    (Wordle.letterBounds g (guess_to_hint g w) L).1 ≤ w.count L ∧
    w.count L ≤ (Wordle.letterBounds g (guess_to_hint g w) L).2 := by
  have hhl : g.length ≤ (guess_to_hint g w).length := by
    rw [guess_to_hint_length]; omega
  have hmarks : g.length ≤ (List.zipWith greenMark g w).length := by
    rw [List.length_zipWith]; omega
  -- the three per-letter mark counts
  have hgs : ((List.zip g (guess_to_hint g w)).filterMap
      (fun p => if p.1 = L then some p.2 else none)).count 'g' =
      matchCount g w L := by
    rw [count_filterMap_letter]
    rw [show guess_to_hint g w = secondPass (cnt0 g w)
        (List.zip g (List.zipWith greenMark g w)) from rfl]
    rw [← countP_zip_zip (fun a c => a = L ∧ c = 'g') g
      (List.zipWith greenMark g w) _ hmarks]
    rw [secondPass_gFor, pairs_green]
  have hys : ((List.zip g (guess_to_hint g w)).filterMap
      (fun p => if p.1 = L then some p.2 else none)).count 'y' =
      min ((List.zip g (List.zipWith greenMark g w)).countP
        (fun p => decide (p.1 = L ∧ p.2 ≠ 'g'))) (cnt0 g w L).toNat := by
    rw [count_filterMap_letter]
    rw [show guess_to_hint g w = secondPass (cnt0 g w)
        (List.zip g (List.zipWith greenMark g w)) from rfl]
    rw [← countP_zip_zip (fun a c => a = L ∧ c = 'y') g
      (List.zipWith greenMark g w) _ hmarks]
    rw [secondPass_yFor]
  -- total over the letter's positions, in the hint version
  have hT : (List.zip g (guess_to_hint g w)).countP
      (fun p => decide (p.1 = L)) = g.count L := zip_countP_letter L g _ hhl
  -- split the letter total into g / y / x marks
  have hsum : (List.zip g (guess_to_hint g w)).countP (fun p => decide (p.1 = L)) =
      (List.zip g (guess_to_hint g w)).countP (fun p => decide (p.1 = L ∧ p.2 = 'g')) +
      ((List.zip g (guess_to_hint g w)).countP (fun p => decide (p.1 = L ∧ p.2 = 'y')) +
       (List.zip g (guess_to_hint g w)).countP (fun p => decide (p.1 = L ∧ p.2 = 'x'))) := by
    have s1 := countP_and_split (fun p : Char × Char => decide (p.1 = L))
      (fun p : Char × Char => p.2 == 'g') (List.zip g (guess_to_hint g w))
    have s2 := countP_and_split
      (fun p : Char × Char => decide (p.1 = L) && !(p.2 == 'g'))
      (fun p : Char × Char => p.2 == 'y') (List.zip g (guess_to_hint g w))
    have e1 : (List.zip g (guess_to_hint g w)).countP
        (fun p : Char × Char => decide (p.1 = L) && (p.2 == 'g')) =
        (List.zip g (guess_to_hint g w)).countP
        (fun p => decide (p.1 = L ∧ p.2 = 'g')) := by
      apply List.countP_congr
      intro x _
      simp only [Bool.and_eq_true, decide_eq_true_eq, beq_iff_eq]
    have e2 : (List.zip g (guess_to_hint g w)).countP
        (fun p : Char × Char => (decide (p.1 = L) && !(p.2 == 'g')) && (p.2 == 'y')) =
        (List.zip g (guess_to_hint g w)).countP
        (fun p => decide (p.1 = L ∧ p.2 = 'y')) := by
      apply List.countP_congr
      intro x _
      simp only [Bool.and_eq_true, Bool.not_eq_true', decide_eq_true_eq,
        beq_eq_false_iff_ne, ne_eq, beq_iff_eq]
      constructor
      · rintro ⟨⟨h1, _⟩, h3⟩
        exact ⟨h1, h3⟩
      · rintro ⟨h1, h2⟩
        refine ⟨⟨h1, ?_⟩, h2⟩
        rw [h2]
        decide
    have e3 : (List.zip g (guess_to_hint g w)).countP
        (fun p : Char × Char => (decide (p.1 = L) && !(p.2 == 'g')) && !(p.2 == 'y')) =
        (List.zip g (guess_to_hint g w)).countP
        (fun p => decide (p.1 = L ∧ p.2 = 'x')) := by
      apply List.countP_congr
      intro x hx
      have hsym := guess_to_hint_symbols g w x.2 (List.of_mem_zip hx).2
      simp only [Bool.and_eq_true, Bool.not_eq_true', decide_eq_true_eq,
        beq_eq_false_iff_ne, ne_eq, beq_iff_eq]
      constructor
      · rintro ⟨⟨h1, h2⟩, h3⟩
        rcases hsym with h | h | h
        · exact absurd h h2
        · exact absurd h h3
        · exact ⟨h1, h⟩
      · rintro ⟨h1, h2⟩
        rw [h2]
        refine ⟨⟨h1, by decide⟩, by decide⟩
    omega
  -- the marks-version non-green count for L
  have hng : (List.zip g (List.zipWith greenMark g w)).countP
      (fun p => decide (p.1 = L ∧ p.2 ≠ 'g')) = g.count L - matchCount g w L := by
    have hsplit := countP_and_split
      (fun p : Char × Char => decide (p.1 = L)) (fun p => p.2 == 'g')
      (List.zip g (List.zipWith greenMark g w))
    have e1 : (List.zip g (List.zipWith greenMark g w)).countP
        (fun p => decide (p.1 = L) && (p.2 == 'g')) = matchCount g w L := by
      rw [← pairs_green L g w]
      apply List.countP_congr
      intro x _
      simp only [Bool.and_eq_true, decide_eq_true_eq, beq_iff_eq]
    have e2 : (List.zip g (List.zipWith greenMark g w)).countP
        (fun p => decide (p.1 = L) && !(p.2 == 'g')) =
        (List.zip g (List.zipWith greenMark g w)).countP
        (fun p => decide (p.1 = L ∧ p.2 ≠ 'g')) := by
      apply List.countP_congr
      intro x _
      simp only [Bool.and_eq_true, Bool.not_eq_true', decide_eq_true_eq,
        beq_eq_false_iff_ne, ne_eq]
    have e3 : (List.zip g (List.zipWith greenMark g w)).countP
        (fun p => decide (p.1 = L)) = g.count L :=
      zip_countP_letter L g _ hmarks
    omega
  have hcap : (cnt0 g w L).toNat = w.count L - matchCount g w L := by
    rw [cnt0, Int.toNat_sub]
  have hmle := matchCount_le_count L g w
  -- translate the filterMap counts used by letterBounds
  have hxs : ((List.zip g (guess_to_hint g w)).filterMap
      (fun p => if p.1 = L then some p.2 else none)).count 'x' =
      (List.zip g (guess_to_hint g w)).countP
        (fun p => decide (p.1 = L ∧ p.2 = 'x')) := count_filterMap_letter L 'x' _
  have hgs' : ((List.zip g (guess_to_hint g w)).filterMap
      (fun p => if p.1 = L then some p.2 else none)).count 'g' =
      (List.zip g (guess_to_hint g w)).countP
        (fun p => decide (p.1 = L ∧ p.2 = 'g')) := count_filterMap_letter L 'g' _
  have hys' : ((List.zip g (guess_to_hint g w)).filterMap
      (fun p => if p.1 = L then some p.2 else none)).count 'y' =
      (List.zip g (guess_to_hint g w)).countP
        (fun p => decide (p.1 = L ∧ p.2 = 'y')) := count_filterMap_letter L 'y' _
  rw [Wordle.letterBounds]
  simp only
  by_cases hx0 : ((List.zip g (guess_to_hint g w)).filterMap
      (fun p => if p.1 = L then some p.2 else none)).count 'x' = 0
  · rw [if_neg (by simpa using hx0)]
    constructor
    · omega
    · exact hw6
  · rw [if_pos (by simpa using hx0)]
    omega

end Naive

/-- Claim C9: the filter is complete — any word of the list that actually
produces the observed feedback is retained by `filter_wordlist`; its
green positions and per-letter counts necessarily satisfy the derived
constraints. -/
theorem C9_filter_complete (wl : List (List Char)) (g w : List Char)
    (hg5 : g.length = 5) (hw5 : w.length = 5)
    (hgl : g.map pyLower = g) (hwl : w.map pyLower = w)
    (hmem : w ∈ wl) :
    w ∈ Wordle.filter_wordlist wl g (Wordle.guess_to_hint g w) := by
  have hW : Wordle.guess_to_hint g w = Naive.guess_to_hint g w := by
    rw [Wordle.guess_to_hint, hgl, hwl]
  have hhfix : (Naive.guess_to_hint g w).map pyLower = Naive.guess_to_hint g w := by
    apply map_pyLower_fixed
    intro c hc
    rcases Naive.guess_to_hint_symbols g w c hc with rfl | rfl | rfl <;> decide
  rw [Wordle.filter_wordlist_eq_filter wl g (Wordle.guess_to_hint g w)]
  rw [List.mem_filter]
  refine ⟨hmem, ?_⟩
  rw [hW, hgl, hhfix, Wordle.filterPred, Bool.and_eq_true]
  have hhl : g.length ≤ (Naive.guess_to_hint g w).length := by
    rw [Naive.guess_to_hint_length]; omega
  constructor
  · -- green stage: every 'g' position of the hint carries the guess letter in w
    have hpoint : ∀ k (pairs : List (Char × Char)),
        (∀ i, ((pairs.getD i (' ', '?')).2 = 'g' →
          w.getD (k + i) ' ' = (pairs.getD i (' ', '?')).1)) →
        Wordle.greenOKFrom w k pairs = true := by
      intro k pairs
      induction pairs generalizing k with
      | nil => intro _; rfl
      | cons p rest ih =>
        intro hp
        obtain ⟨letter, status⟩ := p
        simp only [Wordle.greenOKFrom, Bool.and_eq_true, decide_eq_true_eq]
        constructor
        · intro hst
          have := hp 0
          simpa [hst] using this
        · apply ih (k + 1)
          intro i
          have := hp (i + 1)
          simp only [List.getD_cons_succ] at this
          rw [show k + 1 + i = k + (i + 1) from by omega]
          exact this
    apply hpoint
    intro i
    by_cases hi : i < g.length
    · have hih : i < (Naive.guess_to_hint g w).length := by omega
      rw [getD_zip g _ i ' ' '?' hi hih]
      intro hgreen
      have := (Naive.guess_to_hint_green_iff g w i hi (by omega)).1 hgreen
      simpa using this.symm
    · have hlarge : (List.zip g (Naive.guess_to_hint g w)).length ≤ i := by
        rw [List.length_zip]
        omega
      rw [List.getD_eq_default _ _ hlarge]
      intro hcontr
      simp at hcontr
  · -- count stage: the per-letter bounds hold for every letter
    rw [Wordle.countOK, List.all_eq_true]
    intro L _
    rw [decide_eq_true_eq]
    exact Naive.letterBounds_sound L g w (by omega)
      (le_trans (List.count_le_length L w) (by omega))

/-- Claim C9 witness: "porch" reproduces the feedback of "power" against
it and is indeed retained by the filter. -/
theorem C9_filter_complete_witness :
    ['p','o','r','c','h'] ∈ Wordle.filter_wordlist
      [['p','o','l','a','r'], ['p','o','r','c','h']] ['p','o','w','e','r']
      (Wordle.guess_to_hint ['p','o','w','e','r'] ['p','o','r','c','h']) :=
  C9_filter_complete [['p','o','l','a','r'], ['p','o','r','c','h']]
    ['p','o','w','e','r'] ['p','o','r','c','h']
    (by decide) (by decide) (by decide) (by decide) (by decide)

/- Sanity checks: the doctests of guess_to_hint and filter_wordlist. -/

theorem doctest_hint_array_trash :
    Wordle.guess_to_hint ['a','r','r','a','y'] ['t','r','a','s','h'] =
      ['y','g','x','x','x'] := by decide

theorem doctest_hint_cabal_coral :
    Wordle.guess_to_hint ['c','a','b','a','l'] ['c','o','r','a','l'] =
      ['g','x','x','g','g'] := by decide

theorem doctest_filter_power :
    Wordle.filter_wordlist
      [['p','o','l','a','r'], ['p','o','r','c','h'], ['c','r','a','n','e']]
      ['p','o','w','e','r'] ['g','g','x','x','y'] =
      [['p','o','l','a','r'], ['p','o','r','c','h']] := by decide

/-- Claim C1 (counterexample): the feedback scheme is not symmetric
position by position.  For the real vocabulary words "speed" and "erase",
guessing "speed" against "erase" yields 'yxyyx' while guessing "erase"
against "speed" yields 'yxxyy': the Present marks of a duplicated letter
land at its first free positions in the guess, which differ between the
two words. -/
theorem C1_cex :
    Wordle.guess_to_hint ['s','p','e','e','d'] ['e','r','a','s','e'] =
      ['y','x','y','y','x'] ∧
    Wordle.guess_to_hint ['e','r','a','s','e'] ['s','p','e','e','d'] =
      ['y','x','x','y','y'] ∧
    Wordle.guess_to_hint ['s','p','e','e','d'] ['e','r','a','s','e'] ≠
      Wordle.guess_to_hint ['e','r','a','s','e'] ['s','p','e','e','d'] := by
  decide

/-- Claim C2 (code bug): for the sorted two-word vocabulary
["erase", "speed"] the mirrored matrix entry at (guess 1, solution 0)
holds the code of guess_to_hint("erase", "speed") — the transposed pair —
instead of guess_to_hint("speed", "erase") as the invariant
HintMatrix[g][s] = encode(vocabulary[g], vocabulary[s]) requires. -/
theorem C2_matrix_mirror_bug :
    Wordle.preloadMatrix [['e','r','a','s','e'], ['s','p','e','e','d']] 1 0 =
      Wordle.hintIndex
        (Wordle.guess_to_hint ['e','r','a','s','e'] ['s','p','e','e','d']) ∧
    Wordle.preloadMatrix [['e','r','a','s','e'], ['s','p','e','e','d']] 1 0 ≠
      Wordle.hintIndex
        (Wordle.guess_to_hint ['s','p','e','e','d'] ['e','r','a','s','e']) := by
  decide

/-- Claim C3 (counterexample): filter_wordlist can retain a word that does
not reproduce the observed feedback.  With guess "aabbb" and feedback
'yxxxx' (which "cdaef" produces), the word "cadce" passes the green and
per-letter count constraints and is retained, yet guessing "aabbb"
against "cadce" gives 'xgxxx', not 'yxxxx': the filter never requires
non-green positions to mismatch. -/
theorem C3_cex :
    Wordle.filter_wordlist [['c','a','d','c','e']] ['a','a','b','b','b']
      ['y','x','x','x','x'] = [['c','a','d','c','e']] ∧
    Wordle.guess_to_hint ['a','a','b','b','b'] ['c','d','a','e','f'] =
      ['y','x','x','x','x'] ∧
    Wordle.guess_to_hint ['a','a','b','b','b'] ['c','a','d','c','e'] ≠
      ['y','x','x','x','x'] := by
  decide

/-- Claim C5 (counterexample): on a singleton candidate set the result maps
the empty string — not the sole remaining word — to cost 0: the base case
returns `{'': 0}` literally. -/
theorem C5_cex :
    Wordle.average_number_of_guesses 1 [['c','i','g','a','r']] [['c','i','g','a','r']] =
      some [([], 0)] ∧
    ([] : List Char) ≠ ['c','i','g','a','r'] := by
  decide

/-- Claim C6 (counterexample): no input validation occurs.  A guess made of
characters outside the accepted alphabet is processed like any other word
and receives the ordinary feedback 'xxxxx' — no error is reported and
computation proceeds. -/
theorem C6_cex :
    Wordle.guess_to_hint ['1','2','3','4','5'] ['a','b','c','d','e'] =
      ['x','x','x','x','x'] := by
  decide

/-- Claim C7 (counterexample): the metrics are computed from
filter_wordlist sizes, not from the feedback-group sizes of §4.4.  For
guess "aabbb" over the target set {"cdaef", "cadce"} the two feedback
groups are singletons, so the claimed formulas give averageRemaining
= (1² + 1²)/2 = 1, worstCaseRemaining = 1 and averageGroupSize = 2/2 = 1,
but the code returns 3/2, 2 and 3/2 because the filtered wordlist for
feedback 'yxxxx' also retains "cadce". -/
theorem C7_cex :
    Wordle.naiveMetrics [['c','d','a','e','f'], ['c','a','d','c','e']]
      ['a','a','b','b','b'] = (3/2, 2, 2, 3/2) ∧
    ((((pyDedup ([['c','d','a','e','f'], ['c','a','d','c','e']].map
        (Wordle.guess_to_hint ['a','a','b','b','b']))).map
      (fun h => ([['c','d','a','e','f'], ['c','a','d','c','e']].map
        (Wordle.guess_to_hint ['a','a','b','b','b'])).count h)).map
      (fun n => ((n : ℚ))^2)).sum) /
      (([['c','d','a','e','f'], ['c','a','d','c','e']].length : ℚ)) = 1 ∧
    ((3 : ℚ)/2) ≠ 1 := by
  refine ⟨?_, ?_, by norm_num⟩
  · have h : Wordle.naiveMetrics [['c','d','a','e','f'], ['c','a','d','c','e']]
        ['a','a','b','b','b'] =
        (((3 : ℕ) : ℚ) / ((2 : ℕ) : ℚ), 2, 2, ((3 : ℕ) : ℚ) / ((2 : ℕ) : ℚ)) := rfl
    rw [h]; norm_num
  · have hc : (pyDedup ([['c','d','a','e','f'], ['c','a','d','c','e']].map
        (Wordle.guess_to_hint ['a','a','b','b','b']))).map
        (fun h => ([['c','d','a','e','f'], ['c','a','d','c','e']].map
          (Wordle.guess_to_hint ['a','a','b','b','b'])).count h) = [1, 1] := by decide
    rw [hc]
    norm_num


/-- Claim C1 (amended): the feedback scheme is symmetric at Hit positions —
position i of guess_to_hint(a, b) is marked 'g' exactly when position i of
guess_to_hint(b, a) is (both say the two words agree at i) — but by
`C1_cex` the full position-by-position strings differ in general, so the
spec's claimed algebraic symmetry does not hold for this feedback scheme. -/
theorem C1_green_symmetric (a b : List Char) (hlen : a.length = b.length)
    (i : Nat) :
    ((Wordle.guess_to_hint a b).getD i '?' = 'g') ↔
    ((Wordle.guess_to_hint b a).getD i '?' = 'g') := by
  by_cases hi : i < a.length
  · have hib : i < b.length := by omega
    rw [Wordle.guess_to_hint, Wordle.guess_to_hint]
    rw [Naive.guess_to_hint_green_iff (a.map pyLower) (b.map pyLower) i
      (by simpa using hi) (by simpa using hib)]
    rw [Naive.guess_to_hint_green_iff (b.map pyLower) (a.map pyLower) i
      (by simpa using hib) (by simpa using hi)]
    exact eq_comm
  · have l1 : (Wordle.guess_to_hint a b).length ≤ i := by
      rw [Wordle.guess_to_hint, Naive.guess_to_hint_length]
      simp only [List.length_map]
      omega
    have l2 : (Wordle.guess_to_hint b a).length ≤ i := by
      rw [Wordle.guess_to_hint, Naive.guess_to_hint_length]
      simp only [List.length_map]
      omega
    rw [List.getD_eq_default _ _ l1, List.getD_eq_default _ _ l2]

/-- Claim C1 witness: green-position symmetry at the asymmetric pair of
`C1_cex`, position 0. -/
theorem C1_green_symmetric_witness :
    ((Wordle.guess_to_hint ['s','p','e','e','d'] ['e','r','a','s','e']).getD 0 '?' = 'g') ↔
    ((Wordle.guess_to_hint ['e','r','a','s','e'] ['s','p','e','e','d']).getD 0 '?' = 'g') :=
  C1_green_symmetric ['s','p','e','e','d'] ['e','r','a','s','e'] (by decide) 0

/-- Claim C5 (amended): on any singleton candidate set the search returns,
without recursing, the single-entry mapping from the empty string to cost
0 (so the minimum over its values is 0); the entry is keyed by the empty
string, not by the sole remaining word (`C5_cex`). -/
theorem C5_base_case (fuel : Nat) (vocabulary : List (List Char)) (t : List Char) :
    Wordle.average_number_of_guesses (fuel + 1) vocabulary [t] = some [([], 0)] := by
  simp [Wordle.average_number_of_guesses]

/-- Claim C6 (amended): `guess_to_hint` and `filter_wordlist` perform no
input validation and report no errors: any pair of length-5 character
lists — including ones with characters outside the accepted alphabet —
is processed normally, producing a length-5 feedback string over
{'g','y','x'}, and `filter_wordlist` filters any word list with any hint
without failing (the result is always a sublist of the input). -/
theorem C6_no_validation (g s : List Char) (hg : g.length = 5) (hs : s.length = 5) :
    (Wordle.guess_to_hint g s).length = 5 ∧
    (∀ c ∈ Wordle.guess_to_hint g s, c = 'g' ∨ c = 'y' ∨ c = 'x') ∧
    (∀ (wl : List (List Char)) (h : List Char),
      (Wordle.filter_wordlist wl g h).Sublist wl) := by
  refine ⟨?_, ?_, ?_⟩
  · rw [Wordle.guess_to_hint, Naive.guess_to_hint_length]
    simp [hg, hs]
  · intro c hc
    exact Naive.guess_to_hint_symbols _ _ c hc
  · intro wl h
    exact Wordle.filter_wordlist_sublist wl g h

/-- Claim C6 witness: the out-of-alphabet guess "12345" is processed
normally against "abcde". -/
theorem C6_no_validation_witness :
    (Wordle.guess_to_hint ['1','2','3','4','5'] ['a','b','c','d','e']).length = 5 ∧
    (∀ c ∈ Wordle.guess_to_hint ['1','2','3','4','5'] ['a','b','c','d','e'],
      c = 'g' ∨ c = 'y' ∨ c = 'x') ∧
    (∀ (wl : List (List Char)) (h : List Char),
      (Wordle.filter_wordlist wl ['1','2','3','4','5'] h).Sublist wl) :=
  C6_no_validation ['1','2','3','4','5'] ['a','b','c','d','e']
    (by decide) (by decide)


namespace Wordle

theorem length_insertWord (a : List Char) : ∀ (l : List (List Char)),
    (insertWord a l).length = l.length + 1 := by
  intro l
  induction l with
  | nil => rfl
  | cons b t ih =>
    simp only [insertWord]
    by_cases h : wordLE a b <;> simp [h, ih]

theorem length_pySort (l : List (List Char)) : (pySort l).length = l.length := by
  induction l with
  | nil => rfl
  | cons a t ih =>
    simp only [pySort, List.foldr_cons] at ih ⊢
    rw [length_insertWord, ih, List.length_cons]

end Wordle

theorem mem_pyDedupAux {α : Type} [DecidableEq α] (a : α) : ∀ (l seen : List α),
    a ∈ pyDedupAux l seen ↔ a ∈ l ∧ a ∉ seen := by
  intro l
  induction l with
  | nil => intro seen; simp [pyDedupAux]
  | cons b t ih =>
    intro seen
    by_cases hb : b ∈ seen
    · simp only [pyDedupAux, if_pos hb]
      rw [ih seen, List.mem_cons]
      constructor
      · rintro ⟨h1, h2⟩
        exact ⟨Or.inr h1, h2⟩
      · rintro ⟨h1 | h1, h2⟩
        · subst h1
          exact absurd hb h2
        · exact ⟨h1, h2⟩
    · simp only [pyDedupAux, if_neg hb, List.mem_cons]
      rw [ih (b :: seen)]
      constructor
      · rintro (rfl | ⟨h1, h2⟩)
        · exact ⟨Or.inl rfl, hb⟩
        · refine ⟨Or.inr h1, fun hc => h2 (List.mem_cons_of_mem b hc)⟩
      · rintro ⟨h1 | h1, h2⟩
        · exact Or.inl h1
        · by_cases hab : a = b
          · exact Or.inl hab
          · refine Or.inr ⟨h1, fun hc => ?_⟩
            rcases List.mem_cons.mp hc with h3 | h3
            · exact hab h3
            · exact h2 h3

theorem mem_pyDedup {α : Type} [DecidableEq α] (a : α) (l : List α) :
    a ∈ pyDedup l ↔ a ∈ l := by
  rw [pyDedup, mem_pyDedupAux]
  simp

theorem length_pyDedupAux_le {α : Type} [DecidableEq α] : ∀ (l seen : List α),
    (pyDedupAux l seen).length ≤ l.length := by
  intro l
  induction l with
  | nil => intro seen; simp [pyDedupAux]
  | cons b t ih =>
    intro seen
    by_cases hb : b ∈ seen
    · simp only [pyDedupAux, if_pos hb]
      exact le_trans (ih seen) (Nat.le_succ _)
    · simp only [pyDedupAux, if_neg hb, List.length_cons]
      exact Nat.succ_le_succ (ih (b :: seen))

theorem length_filter_ne_lt {α : Type} [DecidableEq α] (g : α) : ∀ (l : List α),
    g ∈ l → (l.filter (fun w => decide (w ≠ g))).length < l.length := by
  intro l
  induction l with
  | nil => intro h; simp at h
  | cons b t ih =>
    intro h
    simp only [List.filter_cons]
    by_cases hb : b ≠ g
    · have hgt : g ∈ t := by
        rcases List.mem_cons.mp h with h1 | h1
        · exact absurd h1.symm hb
        · exact h1
      rw [if_pos (decide_eq_true hb)]
      simp only [List.length_cons]
      exact Nat.succ_lt_succ (ih hgt)
    · rw [if_neg (by simpa using hb)]
      simp only [List.length_cons]
      exact Nat.lt_succ_of_le (List.length_filter_le _ t)

namespace Wordle

/-- The reduced vocabulary of a recursive call is strictly shorter than the
current vocabulary: `sorted(set(vocabulary) - set([guess]))` drops the
guess, which is a member of the vocabulary. -/
theorem reducedVocab_length_lt (v : List (List Char)) (g : List Char)
    (hg : g ∈ v) :
    (reducedVocab v g).length < v.length := by
  rw [reducedVocab, length_pySort]
  have hmem : g ∈ pyDedup v := (mem_pyDedup g v).mpr hg
  have h1 := length_filter_ne_lt g (pyDedup v) hmem
  have h2 : (pyDedup v).length ≤ v.length := by
    rw [pyDedup]
    exact length_pyDedupAux_le v []
  omega

theorem hintCost_congr (rec1 rec2 :
      List (List Char) → List (List Char) → Option (List (List Char × ℚ)))
    (target : List (List Char)) (guess : List Char) (rv : List (List Char))
    (h : List Char) (hrec : ∀ rt, rec1 rv rt = rec2 rv rt) :
    hintCost rec1 target guess rv h = hintCost rec2 target guess rv h := by
  simp only [hintCost, hrec]

theorem hintLoop_congr (rec1 rec2 :
      List (List Char) → List (List Char) → Option (List (List Char × ℚ)))
    (target : List (List Char)) (guess : List Char) (rv : List (List Char))
    (hrec : ∀ rt, rec1 rv rt = rec2 rv rt) :
    ∀ hs, hintLoop rec1 target guess rv hs = hintLoop rec2 target guess rv hs := by
  intro hs
  induction hs with
  | nil => rfl
  | cons h rest ih =>
    simp only [hintLoop]
    rw [hintCost_congr rec1 rec2 target guess rv h hrec, ih]

theorem guessLoop_congr (rec1 rec2 :
      List (List Char) → List (List Char) → Option (List (List Char × ℚ)))
    (vocabulary target : List (List Char)) :
    ∀ l, (∀ g ∈ l, ∀ rt,
        rec1 (reducedVocab vocabulary g) rt = rec2 (reducedVocab vocabulary g) rt) →
      guessLoop rec1 vocabulary target l = guessLoop rec2 vocabulary target l := by
  intro l
  induction l with
  | nil => intro _; rfl
  | cons g rest ih =>
    intro hrec
    simp only [guessLoop]
    rw [hintLoop_congr rec1 rec2 target g (reducedVocab vocabulary g)
      (hrec g (List.mem_cons_self g rest))]
    rw [ih (fun g' hg' rt => hrec g' (List.mem_cons_of_mem g hg') rt)]

/-- Fuel insensitivity of `average_number_of_guesses`: once the fuel covers
the vocabulary size plus one, adding more fuel does not change the result —
every recursion path strictly shrinks the vocabulary, so the recursion
depth is bounded by the initial vocabulary size. -/
theorem average_stable : ∀ (n : Nat) (vocabulary target : List (List Char)),
    vocabulary.length ≤ n → ∀ f1 f2, vocabulary.length + 1 ≤ f1 →
    vocabulary.length + 1 ≤ f2 →
    average_number_of_guesses f1 vocabulary target =
    average_number_of_guesses f2 vocabulary target := by
  intro n
  induction n with
  | zero =>
    intro vocabulary target hv f1 f2 h1 h2
    have hvnil : vocabulary = [] := List.length_eq_zero.mp (Nat.le_zero.mp hv)
    subst hvnil
    obtain ⟨a, rfl⟩ : ∃ a, f1 = a + 1 := ⟨f1 - 1, by omega⟩
    obtain ⟨b, rfl⟩ : ∃ b, f2 = b + 1 := ⟨f2 - 1, by omega⟩
    simp only [average_number_of_guesses]
    have hnil : guessLoop (average_number_of_guesses a) [] target [] =
        guessLoop (average_number_of_guesses b) [] target [] := rfl
    rw [hnil]
  | succ n ih =>
    intro vocabulary target hv f1 f2 h1 h2
    obtain ⟨a, rfl⟩ : ∃ a, f1 = a + 1 := ⟨f1 - 1, by omega⟩
    obtain ⟨b, rfl⟩ : ∃ b, f2 = b + 1 := ⟨f2 - 1, by omega⟩
    simp only [average_number_of_guesses]
    have hcong : guessLoop (average_number_of_guesses a) vocabulary target vocabulary =
        guessLoop (average_number_of_guesses b) vocabulary target vocabulary := by
      apply guessLoop_congr
      intro g hg rt
      have hlt : (reducedVocab vocabulary g).length < vocabulary.length :=
        reducedVocab_length_lt vocabulary g hg
      exact ih (reducedVocab vocabulary g) rt (by omega) a b (by omega) (by omega)
    rw [hcong]

end Wordle

/-- Claim C10: `average_number_of_guesses` terminates on every finite
vocabulary and non-empty target candidate set: each recursive call removes
the current guess from the vocabulary, so the vocabulary size strictly
decreases along every recursion path (`Wordle.reducedVocab_length_lt`) and
fuel `|vocabulary| + 1` already suffices — any larger fuel computes the
same result. -/
theorem C10_search_terminates (vocabulary target : List (List Char)) (fuel : Nat)
    (htarget : target ≠ []) (hfuel : vocabulary.length + 1 ≤ fuel) :
    Wordle.average_number_of_guesses fuel vocabulary target =
    Wordle.average_number_of_guesses (vocabulary.length + 1) vocabulary target :=
  Wordle.average_stable vocabulary.length vocabulary target le_rfl fuel
    (vocabulary.length + 1) hfuel le_rfl

/-- Claim C10 witness: with a two-word vocabulary, fuel 9 and the
sufficient fuel 3 agree. -/
theorem C10_search_terminates_witness :
    Wordle.average_number_of_guesses 9
      [['c','i','g','a','r'], ['r','e','b','u','s']]
      [['c','i','g','a','r'], ['r','e','b','u','s']] =
    Wordle.average_number_of_guesses
      ([['c','i','g','a','r'], ['r','e','b','u','s']].length + 1)
      [['c','i','g','a','r'], ['r','e','b','u','s']]
      [['c','i','g','a','r'], ['r','e','b','u','s']] :=
  C10_search_terminates [['c','i','g','a','r'], ['r','e','b','u','s']]
    [['c','i','g','a','r'], ['r','e','b','u','s']] 9 (by decide) (by decide)


/-- Multiplicities of the distinct elements (first occurrences, the keys of
a Python `Counter`) sum to the length of the list, generalized over the
`seen` accumulator. -/
theorem sum_count_pyDedupAux {α : Type} [DecidableEq α] [BEq α] [LawfulBEq α] :
    ∀ (l seen : List α),
    ((pyDedupAux l seen).map (fun h => l.count h)).sum =
      (l.filter (fun b => decide (b ∉ seen))).length := by
  intro l
  induction l with
  | nil => intro seen; simp [pyDedupAux]
  | cons a t ih =>
    intro seen
    have hcount : ∀ s' : List α, ((pyDedupAux t s').map (fun h => (a :: t).count h)).sum =
        ((pyDedupAux t s').map (fun h => t.count h)).sum +
        ((pyDedupAux t s').map (fun h => if h = a then 1 else 0)).sum := by
      intro s'
      induction pyDedupAux t s' with
      | nil => simp
      | cons x xs ihx =>
        simp only [List.map_cons, List.sum_cons, ihx]
        have hc : List.count x (a :: t) = List.count x t + if x = a then 1 else 0 := by
          rw [List.count_cons]
          by_cases hax : x = a
          · subst hax
            simp
          · have hf : (a == x) = false := by simpa using Ne.symm hax
            simp [hf, hax]
        omega
    by_cases hb : a ∈ seen
    · simp only [pyDedupAux, if_pos hb, List.filter_cons]
      rw [if_neg (by simpa using hb)]
      rw [hcount seen, ih seen]
      have hzero : ((pyDedupAux t seen).map (fun h => if h = a then 1 else 0)).sum = 0 := by
        have : ∀ h ∈ pyDedupAux t seen, (if h = a then 1 else 0) = 0 := by
          intro h hh
          have := (mem_pyDedupAux h t seen).mp hh
          have hna : h ≠ a := fun he => this.2 (he ▸ hb)
          simp [hna]
        calc ((pyDedupAux t seen).map (fun h => if h = a then 1 else 0)).sum
            = ((pyDedupAux t seen).map (fun _ => (0 : Nat))).sum := by
              rw [List.map_congr_left this]
          _ = 0 := by simp
      omega
    · simp only [pyDedupAux, if_neg hb, List.map_cons, List.sum_cons, List.filter_cons]
      rw [if_pos (by simpa using hb)]
      rw [hcount (a :: seen), ih (a :: seen)]
      have hzero : ((pyDedupAux t (a :: seen)).map (fun h => if h = a then 1 else 0)).sum = 0 := by
        have : ∀ h ∈ pyDedupAux t (a :: seen), (if h = a then 1 else 0) = 0 := by
          intro h hh
          have := (mem_pyDedupAux h t (a :: seen)).mp hh
          have hna : h ≠ a := fun he => this.2 (he ▸ List.mem_cons_self a seen)
          simp [hna]
        calc ((pyDedupAux t (a :: seen)).map (fun h => if h = a then 1 else 0)).sum
            = ((pyDedupAux t (a :: seen)).map (fun _ => (0 : Nat))).sum := by
              rw [List.map_congr_left this]
          _ = 0 := by simp
      -- count a (a :: t) = 1 + count a t; split the not-seen filter of t on (= a)
      have hsplitf : (t.filter (fun b => decide (b ∉ seen))).length =
          t.count a + (t.filter (fun b => decide (b ∉ a :: seen))).length := by
        have h1 : (t.filter (fun b => decide (b ∉ seen))).length =
            t.countP (fun b => decide (b ∉ seen)) :=
          (List.countP_eq_length_filter _ t).symm
        have h2 : (t.filter (fun b => decide (b ∉ a :: seen))).length =
            t.countP (fun b => decide (b ∉ a :: seen)) :=
          (List.countP_eq_length_filter _ t).symm
        have hs := countP_and_split (fun b : α => decide (b ∉ seen))
          (fun b : α => b == a) t
        have e1 : t.countP (fun b => decide (b ∉ seen) && (b == a)) = t.count a := by
          rw [List.count_eq_countP]
          apply List.countP_congr
          intro x _
          simp only [Bool.and_eq_true, decide_eq_true_eq, beq_iff_eq]
          constructor
          · rintro ⟨_, h⟩
            exact h
          · rintro rfl
            exact ⟨hb, rfl⟩
        have e2 : t.countP (fun b => decide (b ∉ seen) && !(b == a)) =
            t.countP (fun b => decide (b ∉ a :: seen)) := by
          apply List.countP_congr
          intro x _
          simp only [Bool.and_eq_true, Bool.not_eq_true', decide_eq_true_eq,
            beq_eq_false_iff_ne, ne_eq, List.mem_cons, not_or]
          tauto
        omega
      simp only [List.count_cons, List.length_cons]
      have haa : ((a == a) = true) := by simp
      simp only [haa, if_true]
      omega

/-- The `Counter` multiplicities over the distinct hints sum to the number
of targets: `hints.total() == len(target_set)`. -/
theorem sum_count_pyDedup {α : Type} [DecidableEq α] [BEq α] [LawfulBEq α]
    (l : List α) :
    ((pyDedup l).map (fun h => l.count h)).sum = l.length := by
  rw [pyDedup, sum_count_pyDedupAux]
  simp


theorem sum_zip_self_mul : ∀ (l : List Nat),
    ((l.zip l).map (fun p => p.1 * p.2)).sum = (l.map (fun n => n * n)).sum := by
  intro l
  induction l with
  | nil => rfl
  | cons a t ih =>
    simp only [List.zip_cons_cons, List.map_cons, List.sum_cons, ih]

namespace Wordle

/-- The feedback-group sizes of §4.4: for each distinct feedback the guess
produces across the target set, the number of targets producing it. -/
def groupSizes (target : List (List Char)) (guess : List Char) : List Nat :=
  (pyDedup (target.map (guess_to_hint guess))).map
    (fun h => (target.map (guess_to_hint guess)).count h)

end Wordle

/-- Claim C7 (amended): the metrics of `naive_best_starting_word` satisfy
the §4.4 formulas — averageRemaining = Σ(groupSize²)/|target|,
worstCaseRemaining = max group size, averageGroupSize =
|target|/groupCount — exactly when each filtered wordlist has the same
size as its feedback group.  In general the code computes the same
expressions with |filter_wordlist(target, guess, hint)| in place of the
group size, and by `C7_cex` these differ when the filter over-retains. -/
theorem C7_metrics_formulas (vocabulary target : List (List Char))
    (g : List Char) (hg : g ∈ vocabulary) (ht : target ≠ [])
    (hExact : ∀ h ∈ pyDedup (target.map (Wordle.guess_to_hint g)),
      (Wordle.filter_wordlist target g h).length =
        (target.map (Wordle.guess_to_hint g)).count h) :
    (g, (((Wordle.groupSizes target g).map (fun n : ℕ => ((n : ℚ))^2)).sum /
          (target.length : ℚ),
         (Wordle.groupSizes target g).foldl max 0,
         (pyDedup (target.map (Wordle.guess_to_hint g))).length,
         (target.length : ℚ) /
           ((pyDedup (target.map (Wordle.guess_to_hint g))).length : ℚ))) ∈
      Wordle.naive_best_starting_word vocabulary target := by
  have hmet : Wordle.naiveMetrics target g =
      (((Wordle.groupSizes target g).map (fun n : ℕ => ((n : ℚ))^2)).sum /
          (target.length : ℚ),
       (Wordle.groupSizes target g).foldl max 0,
       (pyDedup (target.map (Wordle.guess_to_hint g))).length,
       (target.length : ℚ) /
         ((pyDedup (target.map (Wordle.guess_to_hint g))).length : ℚ)) := by
    simp only [Wordle.naiveMetrics]
    have hrem : (pyDedup (target.map (Wordle.guess_to_hint g))).map
        (fun h => (Wordle.filter_wordlist target g h).length) =
        Wordle.groupSizes target g := by
      rw [Wordle.groupSizes]
      exact List.map_congr_left hExact
    have hfold : (pyDedup (target.map (Wordle.guess_to_hint g))).map
        (fun h => (target.map (Wordle.guess_to_hint g)).count h) =
        Wordle.groupSizes target g := rfl
    rw [hrem, hfold]
    have hsumgs : (Wordle.groupSizes target g).sum = target.length := by
      rw [Wordle.groupSizes, sum_count_pyDedup, List.length_map]
    have hz : (((Wordle.groupSizes target g).zip (Wordle.groupSizes target g)).map
        (fun p => p.1 * p.2)).sum = ((Wordle.groupSizes target g).map
        (fun n => n * n)).sum := sum_zip_self_mul _
    have hcast : ((((Wordle.groupSizes target g).map (fun n => n * n)).sum : ℕ) : ℚ) =
        ((Wordle.groupSizes target g).map (fun n : ℕ => ((n : ℚ))^2)).sum := by
      rw [Nat.cast_list_sum, List.map_map]
      apply congrArg List.sum
      apply List.map_congr_left
      intro n _
      simp only [Function.comp_apply]
      push_cast
      ring
    rw [hz, hsumgs, hcast]
  rw [Wordle.naive_best_starting_word]
  exact List.mem_map.mpr ⟨g, hg, by rw [hmet]⟩

/-- Claim C7 witness: on a singleton target set the filter is exact and
the formulas hold. -/
theorem C7_metrics_formulas_witness :
    (['c','i','g','a','r'],
      (((Wordle.groupSizes [['c','i','g','a','r']] ['c','i','g','a','r']).map
          (fun n : ℕ => ((n : ℚ))^2)).sum /
        (([['c','i','g','a','r']] : List (List Char)).length : ℚ),
       (Wordle.groupSizes [['c','i','g','a','r']] ['c','i','g','a','r']).foldl max 0,
       (pyDedup ([['c','i','g','a','r']].map
         (Wordle.guess_to_hint ['c','i','g','a','r']))).length,
       (([['c','i','g','a','r']] : List (List Char)).length : ℚ) /
         ((pyDedup ([['c','i','g','a','r']].map
           (Wordle.guess_to_hint ['c','i','g','a','r']))).length : ℚ))) ∈
      Wordle.naive_best_starting_word [['c','i','g','a','r']] [['c','i','g','a','r']] :=
  C7_metrics_formulas [['c','i','g','a','r']] [['c','i','g','a','r']]
    ['c','i','g','a','r'] (by decide) (by decide) (by decide)


theorem take_succ_getD {α : Type} (l : List α) (k : Nat) (d : α)
    (h : k < l.length) : l.take (k + 1) = l.take k ++ [l.getD k d] := by
  rw [List.take_succ, List.getElem?_eq_getElem h, List.getD_eq_getElem l d h]
  rfl

theorem drop_getD_cons {α : Type} (l : List α) (k : Nat) (d : α)
    (h : k < l.length) : l.drop k = l.getD k d :: l.drop (k + 1) := by
  rw [List.drop_eq_getElem_cons h, List.getD_eq_getElem l d h]

/-- Pointwise-equivalent predicates count equally over prefixes of two zips
sharing the first component. -/
theorem countP_take_congr {α β γ : Type} :
    ∀ (a : List α) (b : List β) (c : List γ) (p : α × β → Bool)
      (q : α × γ → Bool) (da : α) (db : β) (dc : γ) (k : Nat),
      k ≤ a.length → k ≤ b.length → k ≤ c.length →
      (∀ j, j < k → p (a.getD j da, b.getD j db) = q (a.getD j da, c.getD j dc)) →
      ((a.zip b).take k).countP p = ((a.zip c).take k).countP q := by
  intro a
  induction a with
  | nil =>
    intro b c p q da db dc k hka _ _ _
    have hk0 : k = 0 := by simpa using hka
    subst hk0
    simp
  | cons x xs ih =>
    intro b c p q da db dc k hka hkb hkc hpq
    cases k with
    | zero => simp
    | succ k =>
      cases b with
      | nil => simp at hkb
      | cons y ys =>
        cases c with
        | nil => simp at hkc
        | cons z zs =>
          simp only [List.zip_cons_cons, List.take_succ_cons, List.countP_cons]
          have h0 := hpq 0 (Nat.succ_pos k)
          simp only [List.getD_cons_zero] at h0
          rw [ih ys zs p q da db dc k (by simpa using hka) (by simpa using hkb)
            (by simpa using hkc) ?_, h0]
          intro j hj
          have := hpq (j + 1) (by omega)
          simpa [List.getD_cons_succ] using this

namespace Naive

/-- Closed form of the second pass at a non-green position: position i is
'y' exactly when the letter's initial count exceeds the non-green
occurrences of the same letter before position i. -/
theorem secondPass_getD_nongreen : ∀ (pairs : List (Char × Char))
    (cnt : Char → Int) (i : Nat), i < pairs.length →
    (pairs.getD i (' ', '?')).2 ≠ 'g' →
    (secondPass cnt pairs).getD i '?' =
      (if cnt (pairs.getD i (' ', '?')).1 -
          (((pairs.take i).countP
            (fun p => decide (p.1 = (pairs.getD i (' ', '?')).1 ∧ p.2 ≠ 'g'))) : Int) > 0
       then 'y' else 'x') := by
  intro pairs
  induction pairs with
  | nil => intro cnt i h; simp at h
  | cons p rest ih =>
    intro cnt i hi hng
    obtain ⟨gc, m⟩ := p
    cases i with
    | zero =>
      simp only [List.getD_cons_zero] at hng ⊢
      have e : secondPass cnt ((gc, m) :: rest) =
          (if cnt gc > 0 then 'y' else 'x') ::
            secondPass (fun c => if c = gc then cnt gc - 1 else cnt c) rest := by
        simp [secondPass, hng]
      rw [e, List.getD_cons_zero]
      simp
    | succ n =>
      simp only [List.getD_cons_succ] at hng ⊢
      by_cases hm : m = 'g'
      · have e : secondPass cnt ((gc, m) :: rest) = 'g' :: secondPass cnt rest := by
          simp [secondPass, hm]
        rw [e, List.getD_cons_succ]
        rw [ih cnt n (by simpa using hi) hng]
        have hcp : (((gc, m) :: rest).take (n + 1)).countP
            (fun p => decide (p.1 = (rest.getD n (' ', '?')).1 ∧ p.2 ≠ 'g')) =
            (rest.take n).countP
            (fun p => decide (p.1 = (rest.getD n (' ', '?')).1 ∧ p.2 ≠ 'g')) := by
          simp only [List.take_succ_cons, List.countP_cons]
          simp [hm]
        simp only [hcp]
      · have e : secondPass cnt ((gc, m) :: rest) =
            (if cnt gc > 0 then 'y' else 'x') ::
              secondPass (fun c => if c = gc then cnt gc - 1 else cnt c) rest := by
          simp [secondPass, hm]
        rw [e, List.getD_cons_succ]
        rw [ih (fun c => if c = gc then cnt gc - 1 else cnt c) n (by simpa using hi) hng]
        have hcp : (((gc, m) :: rest).take (n + 1)).countP
            (fun p => decide (p.1 = (rest.getD n (' ', '?')).1 ∧ p.2 ≠ 'g')) =
            (rest.take n).countP
            (fun p => decide (p.1 = (rest.getD n (' ', '?')).1 ∧ p.2 ≠ 'g')) +
            (if gc = (rest.getD n (' ', '?')).1 then 1 else 0) := by
          simp only [List.take_succ_cons, List.countP_cons]
          by_cases hgc : gc = (rest.getD n (' ', '?')).1 <;> simp [hgc, hm]
        simp only [hcp]
        by_cases hgc : (rest.getD n (' ', '?')).1 = gc
        · rw [if_pos hgc]
          have hiff : (cnt gc - 1 -
              (((rest.take n).countP (fun p =>
                decide (p.1 = (rest.getD n (' ', '?')).1 ∧ p.2 ≠ 'g'))) : Int) > 0) ↔
              (cnt (rest.getD n (' ', '?')).1 -
              ((((rest.take n).countP (fun p =>
                decide (p.1 = (rest.getD n (' ', '?')).1 ∧ p.2 ≠ 'g'))) +
                (if gc = (rest.getD n (' ', '?')).1 then 1 else 0) : Nat) : Int) > 0) := by
            rw [hgc]
            have h1 : (if gc = gc then 1 else 0) = 1 := if_pos rfl
            rw [h1]
            push_cast
            omega
          simp only [hiff]
        · rw [if_neg hgc]
          have hiff : (cnt (rest.getD n (' ', '?')).1 -
              (((rest.take n).countP (fun p =>
                decide (p.1 = (rest.getD n (' ', '?')).1 ∧ p.2 ≠ 'g'))) : Int) > 0) ↔
              (cnt (rest.getD n (' ', '?')).1 -
              ((((rest.take n).countP (fun p =>
                decide (p.1 = (rest.getD n (' ', '?')).1 ∧ p.2 ≠ 'g'))) +
                (if gc = (rest.getD n (' ', '?')).1 then 1 else 0) : Nat) : Int) > 0) := by
            rw [if_neg (fun h => hgc h.symm)]
            push_cast
            omega
          simp only [hiff]

end Naive


theorem zip_take_comm {α β : Type} : ∀ (a : List α) (b : List β) (k : Nat),
    (a.zip b).take k = (a.take k).zip (b.take k) := by
  intro a
  induction a with
  | nil => intro b k; simp
  | cons x xs ih =>
    intro b k
    cases b with
    | nil => simp
    | cons y ys =>
      cases k with
      | zero => simp
      | succ k =>
        simp only [List.zip_cons_cons, List.take_succ_cons, ih]

/-- Splitting a zip along an append of the second list. -/
theorem zip_append_split {α β : Type} : ∀ (a : List α) (b c : List β),
    a.zip (b ++ c) = (a.take b.length).zip b ++ (a.drop b.length).zip c := by
  intro a b
  induction b generalizing a with
  | nil => simp
  | cons y ys ih =>
    intro c
    cases a with
    | nil => simp
    | cons x xs =>
      simp only [List.cons_append, List.zip_cons_cons, List.length_cons,
        List.take_succ_cons, List.drop_succ_cons, ih]

namespace Precompute

/-- Marks state of the vectorized loop after `k` iterations: the first `k`
positions already carry the final feedback, the rest still carry the
initial green/'x' marks. -/
def vecMixed (g s : List Char) (k : Nat) : List Char :=
  (Naive.guess_to_hint g s).take k ++ (vecInit g s).drop k

/-- Number of 'y' marks for letter `L` among the first `k` positions of the
final feedback. -/
def yCnt (g s : List Char) (k : Nat) (L : Char) : Nat :=
  ((g.zip (Naive.guess_to_hint g s)).take k).countP
    (fun p => decide (p.1 = L ∧ p.2 = 'y'))

/-- Number of non-green positions of letter `L` among the first `k`
positions. -/
def ngB (g s : List Char) (k : Nat) (L : Char) : Nat :=
  ((g.zip (Naive.guess_to_hint g s)).take k).countP
    (fun p => decide (p.1 = L ∧ p.2 ≠ 'g'))

theorem yCnt_le_ngB (g s : List Char) (k : Nat) (L : Char) :
    yCnt g s k L ≤ ngB g s k L := by
  apply List.countP_mono_left
  intro x _ hx
  simp only [decide_eq_true_eq] at hx ⊢
  refine ⟨hx.1, ?_⟩
  rw [hx.2]
  decide

theorem vecInit_countP (L : Char) (g : List Char) : ∀ (s : List Char),
    (g.zip (vecInit g s)).countP (fun p => decide (p.1 = L ∧ p.2 ≠ 'x')) =
      Naive.matchCount g s L := by
  induction g with
  | nil => intro s; simp [vecInit, Naive.matchCount]
  | cons a as ih =>
    intro s
    cases s with
    | nil => simp [vecInit, Naive.matchCount]
    | cons b bs =>
      have ihs := ih bs
      simp only [Naive.matchCount] at ihs ⊢
      simp only [vecInit, List.zipWith_cons_cons, List.zip_cons_cons,
        List.countP_cons] at ihs ⊢
      rw [ihs]
      by_cases hab : a = b
      · subst hab
        simp
      · simp [hab]

theorem matchCount_split (L : Char) (g s : List Char) (k : Nat)
    (hkg : k ≤ g.length) (hks : k ≤ s.length) :
    Naive.matchCount g s L =
      Naive.matchCount (g.take k) (s.take k) L +
      Naive.matchCount (g.drop k) (s.drop k) L := by
  simp only [Naive.matchCount]
  conv_lhs => rw [← List.take_append_drop k g, ← List.take_append_drop k s]
  rw [List.zip_append (by simp [List.length_take]; omega), List.countP_append]

theorem out_length (g s : List Char) (hlen : g.length = s.length) :
    (Naive.guess_to_hint g s).length = g.length := by
  rw [Naive.guess_to_hint_length]
  omega

theorem vecInit_length (g s : List Char) (hlen : g.length = s.length) :
    (vecInit g s).length = g.length := by
  rw [vecInit, List.length_zipWith]
  omega

/-- The `already_assigned` count over the mixed marks: all green marks of
the letter plus the 'y' marks already decided. -/
theorem vecAssigned_mixed (g s : List Char) (hlen : g.length = s.length)
    (k : Nat) (hk : k ≤ g.length) (L : Char) :
    vecAssigned g (vecMixed g s k) L =
      Naive.matchCount g s L + yCnt g s k L := by
  have hout := out_length g s hlen
  have hvi := vecInit_length g s hlen
  rw [vecAssigned, vecMixed, zip_append_split, List.countP_append]
  have hbl : ((Naive.guess_to_hint g s).take k).length = k := by
    rw [List.length_take]
    omega
  rw [hbl]
  -- suffix: greens of the untouched tail
  have hsuffix : ((g.drop k).zip ((vecInit g s).drop k)).countP
      (fun p => decide (p.1 = L ∧ p.2 ≠ 'x')) =
      Naive.matchCount (g.drop k) (s.drop k) L := by
    rw [show (vecInit g s).drop k = vecInit (g.drop k) (s.drop k) from by
      rw [vecInit, vecInit, List.drop_zipWith]]
    exact vecInit_countP L (g.drop k) (s.drop k)
  -- prefix: greens plus Present marks of the decided head
  have hprefix : ((g.take k).zip ((Naive.guess_to_hint g s).take k)).countP
      (fun p => decide (p.1 = L ∧ p.2 ≠ 'x')) =
      Naive.matchCount (g.take k) (s.take k) L + yCnt g s k L := by
    rw [← zip_take_comm]
    have hs1 := countP_and_split
      (fun p : Char × Char => decide (p.1 = L ∧ p.2 ≠ 'x'))
      (fun p : Char × Char => p.2 == 'g')
      ((g.zip (Naive.guess_to_hint g s)).take k)
    have e1 : ((g.zip (Naive.guess_to_hint g s)).take k).countP
        (fun p => decide (p.1 = L ∧ p.2 ≠ 'x') && (p.2 == 'g')) =
        Naive.matchCount (g.take k) (s.take k) L := by
      have ecc : ((g.zip (Naive.guess_to_hint g s)).take k).countP
          (fun p => decide (p.1 = L ∧ p.2 ≠ 'x') && (p.2 == 'g')) =
          ((g.zip s).take k).countP
          (fun p => decide (p.1 = p.2 ∧ p.1 = L)) := by
        apply countP_take_congr g (Naive.guess_to_hint g s) s _ _ ' ' '?' ' ' k
          hk (by omega) (by omega)
        intro j hj
        have hgr := Naive.guess_to_hint_green_iff g s j (by omega) (by omega)
        by_cases hj2 : (Naive.guess_to_hint g s).getD j '?' = 'g'
        · have heq : g.getD j ' ' = s.getD j ' ' := hgr.mp hj2
          rw [hj2, heq]
          by_cases hL : s.getD j ' ' = L <;> simp [hL]
        · have hne : ¬(g.getD j ' ' = s.getD j ' ') := fun h => hj2 (hgr.mpr h)
          rw [show ((Naive.guess_to_hint g s).getD j '?' == 'g') = false from by
            simpa using hj2]
          rw [List.getD_eq_getElem?_getD, List.getD_eq_getElem?_getD] at hne
          simp [hne]
      rw [ecc, zip_take_comm]
      rfl
    have e2 : ((g.zip (Naive.guess_to_hint g s)).take k).countP
        (fun p => decide (p.1 = L ∧ p.2 ≠ 'x') && !(p.2 == 'g')) =
        yCnt g s k L := by
      rw [yCnt]
      apply List.countP_congr
      intro x hx
      have hmem : x ∈ g.zip (Naive.guess_to_hint g s) :=
        List.mem_of_mem_take hx
      have hsym := Naive.guess_to_hint_symbols g s x.2 (List.of_mem_zip hmem).2
      simp only [Bool.and_eq_true, Bool.not_eq_true', decide_eq_true_eq,
        beq_eq_false_iff_ne, ne_eq]
      constructor
      · rintro ⟨⟨h1, h2⟩, h3⟩
        rcases hsym with h | h | h
        · exact absurd h h3
        · exact ⟨h1, h⟩
        · exact absurd h h2
      · rintro ⟨h1, h2⟩
        rw [h2]
        exact ⟨⟨h1, by decide⟩, by decide⟩
    omega
  rw [hsuffix, hprefix]
  have hms := matchCount_split L g s k hk (by omega)
  omega

end Precompute


namespace Precompute

theorem yCnt_succ (g s : List Char) (hlen : g.length = s.length) (k : Nat)
    (hk : k < g.length) (L : Char) :
    yCnt g s (k + 1) L = yCnt g s k L +
      (if g.getD k ' ' = L ∧ (Naive.guess_to_hint g s).getD k '?' = 'y'
       then 1 else 0) := by
  have hout := out_length g s hlen
  have hzl : k < (g.zip (Naive.guess_to_hint g s)).length := by
    rw [List.length_zip]
    omega
  rw [yCnt, yCnt, take_succ_getD _ k (' ', '?') hzl, List.countP_append]
  rw [getD_zip g _ k ' ' '?' hk (by omega)]
  generalize (g.getD k ' ') = a
  generalize ((Naive.guess_to_hint g s).getD k '?') = o
  by_cases h1 : a = L <;> by_cases h2 : o = 'y' <;> simp [h1, h2]

theorem ngB_succ (g s : List Char) (hlen : g.length = s.length) (k : Nat)
    (hk : k < g.length) (L : Char) :
    ngB g s (k + 1) L = ngB g s k L +
      (if g.getD k ' ' = L ∧ (Naive.guess_to_hint g s).getD k '?' ≠ 'g'
       then 1 else 0) := by
  have hout := out_length g s hlen
  have hzl : k < (g.zip (Naive.guess_to_hint g s)).length := by
    rw [List.length_zip]
    omega
  rw [ngB, ngB, take_succ_getD _ k (' ', '?') hzl, List.countP_append]
  rw [getD_zip g _ k ' ' '?' hk (by omega)]
  generalize (g.getD k ' ') = a
  generalize ((Naive.guess_to_hint g s).getD k '?') = o
  by_cases h1 : a = L <;> by_cases h2 : o = 'g' <;> simp [h1, h2]

theorem vecInit_getD (g s : List Char) (hlen : g.length = s.length) (k : Nat)
    (hk : k < g.length) :
    (vecInit g s).getD k 'x' =
      (if g.getD k ' ' = s.getD k ' ' then 'g' else 'x') := by
  rw [vecInit, getD_zipWith _ g s k ' ' ' ' 'x' hk (by omega)]

theorem mixed_getD_k (g s : List Char) (hlen : g.length = s.length) (k : Nat)
    (hk : k < g.length) :
    (vecMixed g s k).getD k 'x' = (vecInit g s).getD k 'x' := by
  have hbl : ((Naive.guess_to_hint g s).take k).length = k := by
    rw [List.length_take, out_length g s hlen]
    omega
  rw [vecMixed, List.getD_eq_getElem?_getD,
    List.getElem?_append_right (by omega : ((Naive.guess_to_hint g s).take k).length ≤ k)]
  rw [hbl, Nat.sub_self, List.getElem?_drop, Nat.add_zero,
    ← List.getD_eq_getElem?_getD]

theorem mixed_set_y (g s : List Char) (hlen : g.length = s.length) (k : Nat)
    (hk : k < g.length) :
    (vecMixed g s k).set k 'y' =
      (Naive.guess_to_hint g s).take k ++ 'y' :: (vecInit g s).drop (k + 1) := by
  have hbl : ((Naive.guess_to_hint g s).take k).length = k := by
    rw [List.length_take, out_length g s hlen]
    omega
  rw [vecMixed, List.set_append, if_neg (by omega), hbl, Nat.sub_self]
  rw [drop_getD_cons (vecInit g s) k 'x' (by rw [vecInit_length g s hlen]; omega)]
  rfl

theorem mixed_succ (g s : List Char) (hlen : g.length = s.length) (k : Nat)
    (hk : k < g.length) :
    vecMixed g s (k + 1) = (Naive.guess_to_hint g s).take k ++
      (Naive.guess_to_hint g s).getD k '?' :: (vecInit g s).drop (k + 1) := by
  rw [vecMixed, take_succ_getD _ k '?' (by rw [out_length g s hlen]; omega),
    List.append_assoc, List.singleton_append]

theorem mixed_keep (g s : List Char) (hlen : g.length = s.length) (k : Nat)
    (hk : k < g.length) :
    vecMixed g s k = (Naive.guess_to_hint g s).take k ++
      (vecInit g s).getD k 'x' :: (vecInit g s).drop (k + 1) := by
  rw [vecMixed, drop_getD_cons (vecInit g s) k 'x'
    (by rw [vecInit_length g s hlen]; omega)]

/-- The final feedback at a non-green position, in terms of the prefix
counts of the invariant. -/
theorem out_getD_nongreen (g s : List Char) (hlen : g.length = s.length)
    (k : Nat) (hk : k < g.length) (hng : ¬(g.getD k ' ' = s.getD k ' ')) :
    (Naive.guess_to_hint g s).getD k '?' =
      (if Naive.cnt0 g s (g.getD k ' ') - (ngB g s k (g.getD k ' ') : Int) > 0
       then 'y' else 'x') := by
  have hplen : (g.zip (List.zipWith Naive.greenMark g s)).length = g.length := by
    rw [List.length_zip, List.length_zipWith]
    omega
  have hpget : (g.zip (List.zipWith Naive.greenMark g s)).getD k (' ', '?') =
      (g.getD k ' ', Naive.greenMark (g.getD k ' ') (s.getD k ' ')) := by
    rw [getD_zip g _ k ' ' '?' hk (by rw [List.length_zipWith]; omega)]
    rw [getD_zipWith Naive.greenMark g s k ' ' ' ' '?' hk (by omega)]
  have hng2 : ((g.zip (List.zipWith Naive.greenMark g s)).getD k (' ', '?')).2 ≠ 'g' := by
    rw [hpget]
    rw [show Naive.greenMark (g.getD k ' ') (s.getD k ' ') = '_' from by
      rw [Naive.greenMark, if_neg hng]]
    simp
  have hcf := Naive.secondPass_getD_nongreen
    (g.zip (List.zipWith Naive.greenMark g s)) (Naive.cnt0 g s) k (by omega) hng2
  rw [show Naive.guess_to_hint g s = Naive.secondPass (Naive.cnt0 g s)
    (g.zip (List.zipWith Naive.greenMark g s)) from rfl]
  rw [hcf]
  simp only [hpget]
  have hcc : (((g.zip (List.zipWith Naive.greenMark g s)).take k).countP
      (fun p => decide (p.1 = g.getD k ' ' ∧ p.2 ≠ 'g'))) =
      ngB g s k (g.getD k ' ') := by
    rw [ngB]
    apply countP_take_congr g (List.zipWith Naive.greenMark g s)
      (Naive.guess_to_hint g s) _ _ ' ' '?' '?' k (by omega)
      (by rw [List.length_zipWith]; omega) (by rw [out_length g s hlen]; omega)
    intro j hj
    have hgr := Naive.guess_to_hint_green_iff g s j (by omega) (by omega)
    have hmj : (List.zipWith Naive.greenMark g s).getD j '?' =
        Naive.greenMark (g.getD j ' ') (s.getD j ' ') :=
      getD_zipWith Naive.greenMark g s j ' ' ' ' '?' (by omega) (by omega)
    rw [hmj]
    by_cases heq : g.getD j ' ' = s.getD j ' '
    · have h1 : Naive.greenMark (g.getD j ' ') (s.getD j ' ') = 'g' := by
        rw [Naive.greenMark, if_pos heq]
      have h2 : (Naive.guess_to_hint g s).getD j '?' = 'g' := hgr.mpr heq
      rw [h1, h2]
    · have h1 : Naive.greenMark (g.getD j ' ') (s.getD j ' ') = '_' := by
        rw [Naive.greenMark, if_neg heq]
      have h2 : ¬((Naive.guess_to_hint g s).getD j '?' = 'g') :=
        fun h => heq (hgr.mp h)
      rw [h1]
      generalize ((Naive.guess_to_hint g s).getD j '?') = o at h2
      generalize (g.getD j ' ') = x
      by_cases hx : x = g.getD k ' ' <;> simp [hx, h2]
  simp only [hcc]

end Precompute


namespace Precompute

/-- Invariant of the vectorized loop: starting from the mixed marks after
`k` iterations — final feedback on the first `k` positions, initial marks
on the rest — with the capacity invariant relating 'y' counts to non-green
counts, the remaining iterations produce exactly the two-pass feedback. -/
theorem vecLoop_mixed (g s : List Char) (hlen : g.length = s.length) :
    ∀ (d k : Nat), k + d = g.length →
      (∀ L, Naive.cnt0 g s L ≤ (yCnt g s k L : Int) ∨
        yCnt g s k L = ngB g s k L) →
      vecLoop s g (vecMixed g s k) k (g.drop k) = Naive.guess_to_hint g s := by
  intro d
  induction d with
  | zero =>
    intro k hk _
    have hkn : k = g.length := by omega
    subst hkn
    rw [List.drop_length]
    rw [show vecLoop s g (vecMixed g s g.length) g.length [] =
      vecMixed g s g.length from rfl]
    rw [vecMixed]
    have h1 : (Naive.guess_to_hint g s).take g.length = Naive.guess_to_hint g s := by
      rw [← out_length g s hlen]
      exact List.take_length _
    have h2 : (vecInit g s).drop g.length = ([] : List Char) := by
      rw [← vecInit_length g s hlen]
      exact List.drop_length _
    rw [h1, h2, List.append_nil]
  | succ d ihd =>
    intro k hk hJ
    have hkn : k < g.length := by omega
    rw [drop_getD_cons g k ' ' hkn]
    simp only [vecLoop]
    by_cases hgreen : g.getD k ' ' = s.getD k ' '
    · have hvik : (vecInit g s).getD k 'x' = 'g' := by
        rw [vecInit_getD g s hlen k hkn, if_pos hgreen]
      have hmk : (vecMixed g s k).getD k 'x' = 'g' := by
        rw [mixed_getD_k g s hlen k hkn, hvik]
      have hstep : vecStep s g (vecMixed g s k) k (g.getD k ' ') = vecMixed g s k := by
        rw [vecStep, if_neg]
        rintro ⟨-, hcond2⟩
        exact hcond2 hmk
      have hout_k : (Naive.guess_to_hint g s).getD k '?' = 'g' :=
        (Naive.guess_to_hint_green_iff g s k hkn (by omega)).mpr hgreen
      have hmix : vecMixed g s k = vecMixed g s (k + 1) := by
        rw [mixed_keep g s hlen k hkn, mixed_succ g s hlen k hkn, hvik, hout_k]
      rw [hstep, hmix]
      apply ihd (k + 1) (by omega)
      intro L
      rw [yCnt_succ g s hlen k hkn L, ngB_succ g s hlen k hkn L]
      have hy0 : (if g.getD k ' ' = L ∧
          (Naive.guess_to_hint g s).getD k '?' = 'y' then 1 else 0) = 0 := by
        rw [if_neg]
        rintro ⟨-, h2⟩
        rw [hout_k] at h2
        exact absurd h2 (by decide)
      have hg0 : (if g.getD k ' ' = L ∧
          (Naive.guess_to_hint g s).getD k '?' ≠ 'g' then 1 else 0) = 0 := by
        rw [if_neg]
        rintro ⟨-, h2⟩
        exact h2 hout_k
      rw [hy0, hg0]
      simp only [Nat.add_zero]
      exact hJ L
    · have hvik : (vecInit g s).getD k 'x' = 'x' := by
        rw [vecInit_getD g s hlen k hkn, if_neg hgreen]
      have hmk : (vecMixed g s k).getD k 'x' = 'x' := by
        rw [mixed_getD_k g s hlen k hkn, hvik]
      have hof := out_getD_nongreen g s hlen k hkn hgreen
      have hcap : (s.count (g.getD k ' ') : Int) -
          (vecAssigned g (vecMixed g s k) (g.getD k ' ') : Int) =
          Naive.cnt0 g s (g.getD k ' ') - (yCnt g s k (g.getD k ' ') : Int) := by
        rw [vecAssigned_mixed g s hlen k (by omega), Naive.cnt0]
        push_cast
        ring
      have hyn := yCnt_le_ngB g s k (g.getD k ' ')
      by_cases hpos : Naive.cnt0 g s (g.getD k ' ') -
          (yCnt g s k (g.getD k ' ') : Int) > 0
      · have hc2 : yCnt g s k (g.getD k ' ') = ngB g s k (g.getD k ' ') := by
          rcases hJ (g.getD k ' ') with h | h
          · omega
          · exact h
        have hout_k : (Naive.guess_to_hint g s).getD k '?' = 'y' := by
          rw [hof, if_pos (show Naive.cnt0 g s (g.getD k ' ') -
            (ngB g s k (g.getD k ' ') : Int) > 0 from by omega)]
        have hstep : vecStep s g (vecMixed g s k) k (g.getD k ' ') =
            (vecMixed g s k).set k 'y' := by
          rw [vecStep, if_pos]
          constructor
          · rw [hcap]
            exact hpos
          · rw [hmk]
            decide
        have hmix : (vecMixed g s k).set k 'y' = vecMixed g s (k + 1) := by
          rw [mixed_set_y g s hlen k hkn, mixed_succ g s hlen k hkn, hout_k]
        rw [hstep, hmix]
        apply ihd (k + 1) (by omega)
        intro L
        rw [yCnt_succ g s hlen k hkn L, ngB_succ g s hlen k hkn L]
        by_cases hL : g.getD k ' ' = L
        · have hy1 : (if g.getD k ' ' = L ∧
              (Naive.guess_to_hint g s).getD k '?' = 'y' then 1 else 0) = 1 :=
            if_pos ⟨hL, hout_k⟩
          have hg1 : (if g.getD k ' ' = L ∧
              (Naive.guess_to_hint g s).getD k '?' ≠ 'g' then 1 else 0) = 1 :=
            if_pos ⟨hL, by rw [hout_k]; decide⟩
          rw [hy1, hg1]
          rw [hL] at hc2
          right
          omega
        · have hy0 : (if g.getD k ' ' = L ∧
              (Naive.guess_to_hint g s).getD k '?' = 'y' then 1 else 0) = 0 :=
            if_neg (fun h => hL h.1)
          have hg0 : (if g.getD k ' ' = L ∧
              (Naive.guess_to_hint g s).getD k '?' ≠ 'g' then 1 else 0) = 0 :=
            if_neg (fun h => hL h.1)
          rw [hy0, hg0]
          simp only [Nat.add_zero]
          exact hJ L
      · have hout_k : (Naive.guess_to_hint g s).getD k '?' = 'x' := by
          rw [hof, if_neg (show ¬(Naive.cnt0 g s (g.getD k ' ') -
            (ngB g s k (g.getD k ' ') : Int) > 0) from by omega)]
        have hstep : vecStep s g (vecMixed g s k) k (g.getD k ' ') =
            vecMixed g s k := by
          rw [vecStep, if_neg]
          rintro ⟨hcond1, -⟩
          rw [hcap] at hcond1
          exact hpos hcond1
        have hmix : vecMixed g s k = vecMixed g s (k + 1) := by
          rw [mixed_keep g s hlen k hkn, mixed_succ g s hlen k hkn, hvik, hout_k]
        rw [hstep, hmix]
        apply ihd (k + 1) (by omega)
        intro L
        rw [yCnt_succ g s hlen k hkn L, ngB_succ g s hlen k hkn L]
        by_cases hL : g.getD k ' ' = L
        · have hy0 : (if g.getD k ' ' = L ∧
              (Naive.guess_to_hint g s).getD k '?' = 'y' then 1 else 0) = 0 := by
            rw [if_neg]
            rintro ⟨-, h2⟩
            rw [hout_k] at h2
            exact absurd h2 (by decide)
          have hg1 : (if g.getD k ' ' = L ∧
              (Naive.guess_to_hint g s).getD k '?' ≠ 'g' then 1 else 0) = 1 :=
            if_pos ⟨hL, by rw [hout_k]; decide⟩
          rw [hy0, hg1]
          rw [hL] at hpos
          left
          simp only [Nat.add_zero]
          omega
        · have hy0 : (if g.getD k ' ' = L ∧
              (Naive.guess_to_hint g s).getD k '?' = 'y' then 1 else 0) = 0 :=
            if_neg (fun h => hL h.1)
          have hg0 : (if g.getD k ' ' = L ∧
              (Naive.guess_to_hint g s).getD k '?' ≠ 'g' then 1 else 0) = 0 :=
            if_neg (fun h => hL h.1)
          rw [hy0, hg0]
          simp only [Nat.add_zero]
          exact hJ L

/-- The vectorized row computation equals the two-pass feedback of
naive.py on words of equal length. -/
theorem vecHint_eq (g s : List Char) (hlen : g.length = s.length) :
    vecHint g s = Naive.guess_to_hint g s := by
  have h0 : vecMixed g s 0 = vecInit g s := by
    rw [vecMixed, List.take_zero, List.drop_zero, List.nil_append]
  have hJ0 : ∀ L, Naive.cnt0 g s L ≤ (yCnt g s 0 L : Int) ∨
      yCnt g s 0 L = ngB g s 0 L := fun L => Or.inr rfl
  have hmain := vecLoop_mixed g s hlen g.length 0 (by omega) hJ0
  rw [vecHint, ← h0]
  simpa using hmain

end Precompute

/-- C4: for vocabularies of 5-letter words, the vectorized matrix builder
`precompute_guesses_to_hints` produces at every (guess index, solution
index) cell exactly the hint index of the element-wise two-pass
`guess_to_hint` of naive.py applied to that word pair. -/
theorem C4_precompute_matches (source target : List (List Char))
    (hs : ∀ w ∈ source, w.length = 5) (ht : ∀ w ∈ target, w.length = 5) :
    Precompute.precompute_guesses_to_hints source target =
      source.map (fun g => target.map
        (fun s => Wordle.hintIndex (Naive.guess_to_hint g s))) := by
  rw [Precompute.precompute_guesses_to_hints]
  apply List.map_congr_left
  intro g hg
  apply List.map_congr_left
  intro s hsm
  rw [Precompute.vecHint_eq g s (by rw [hs g hg, ht s hsm])]

/-- Witness for C4 on the concrete vocabulary ['erase', 'speed']. -/
theorem C4_precompute_matches_witness :
    Precompute.precompute_guesses_to_hints
      [['e','r','a','s','e'], ['s','p','e','e','d']]
      [['e','r','a','s','e'], ['s','p','e','e','d']] =
    [['e','r','a','s','e'], ['s','p','e','e','d']].map (fun g =>
      [['e','r','a','s','e'], ['s','p','e','e','d']].map
        (fun s => Wordle.hintIndex (Naive.guess_to_hint g s))) :=
  C4_precompute_matches
    [['e','r','a','s','e'], ['s','p','e','e','d']]
    [['e','r','a','s','e'], ['s','p','e','e','d']]
    (by decide) (by decide)
